import Mathlib

/-!
Verification of the Resilient Core Engine specification against a shallow
embedding of the Rust sources.

Every definition below is translated from a named Rust item of the repository
(file and item given in each doc comment).  Machine integers (u32, u64, usize)
are modelled as Nat: none of the translated code paths can overflow at the
sizes the claims quantify over, and no wrap-around arithmetic occurs in them.
Timestamps (chrono), UUIDs, BLAKE3 checksums and log output are omitted where
they are dead data for every claim under consideration.  The only component
that is not translated from the sources is the Reed-Solomon arithmetic, which
lives in the external reed_solomon_erasure crate: it is modelled from the
specification (see the comments at the definitions marked
"Modelled from the spec").
-/

namespace RCE

/-- Decidable equality on Except values, for closed evaluation of the
modelled fallible operations. -/
instance {ε α : Type _} [DecidableEq ε] [DecidableEq α] : DecidableEq (Except ε α)
  | .ok a, .ok b =>
      if h : a = b then .isTrue (by rw [h]) else .isFalse (by intro hh; cases hh; exact h rfl)
  | .error a, .error b =>
      if h : a = b then .isTrue (by rw [h]) else .isFalse (by intro hh; cases hh; exact h rfl)
  | .ok _, .error _ => .isFalse (by intro hh; cases hh)
  | .error _, .ok _ => .isFalse (by intro hh; cases hh)

/-! ## Shared data model: priority (src/chunk/types.rs) -/

/-- Rust enum Priority (src/chunk/types.rs): Critical = 0, High = 1, Normal = 2. -/
inductive Priority where
  | critical
  | high
  | normal
deriving DecidableEq, Repr

/-! ## Transfer state machine (src/coordinator/types.rs, state_machine.rs) -/

/-- Rust enum TransferState (src/coordinator/types.rs).  The progress field is
an f32 in Rust; the state machine only ever stores the constant 0.0 into it or
copies it unchanged, so it is modelled as a rational number (every value that
actually occurs is exactly representable and no arithmetic is performed). -/
inductive TransferState where
  | idle
  | preparing
  | transferring (progress : ℚ)
  | paused (reason : String)
  | completing
  | completed
  | failed (error : String)
deriving DecidableEq, Repr

/-- Rust enum TransferEvent (src/coordinator/types.rs).  PathBuf is modelled
as String. -/
inductive TransferEvent where
  | start (filePath : String) (priority : Priority)
  | chunkCompleted (chunkNumber : ℕ)
  | chunkFailed (chunkNumber : ℕ) (error : String)
  | pause
  | resume
  | cancel
  | networkFailure (pathId : String)
  | networkRecovered (pathId : String)
  | transferComplete
deriving DecidableEq, Repr

/-- Rust enum CoordinatorError (src/coordinator/error.rs); only the variant
used by the state machine is carried here.  The message produced by the Rust
code is a Debug rendering of the event and state; the exact text is not
modelled (no claim inspects it). -/
inductive CoordinatorError where
  | invalidStateTransition (msg : String)
deriving DecidableEq, Repr

/-- Boolean substring test on lists, used to model Rust str::contains. -/
def listLeadsWith [DecidableEq α] : List α → List α → Bool
  | [], _ => true
  | _ :: _, [] => false
  | a :: as, b :: bs => a = b && listLeadsWith as bs

/-- Boolean substring occurrence test on lists. -/
def listHasSub [DecidableEq α] (needle : List α) : List α → Bool
  | [] => needle.isEmpty
  | c :: rest => listLeadsWith needle (c :: rest) || listHasSub needle rest

/-- Rust str::contains(needle) substring test. -/
def strContains (haystack needle : String) : Bool :=
  listHasSub needle.toList haystack.toList

/-- Rust TransferStateMachine::transition (src/coordinator/state_machine.rs,
lines 43-117).  The match arms appear in exactly the source order; in
particular the arm for (Completing, _) precedes the arm for (_, Cancel), and
the guard on (Paused, NetworkRecovered) falls through to the remaining arms
when it is false, which for that event means the catch-all error arm. -/
def transition (state : TransferState) (event : TransferEvent) :
    Except CoordinatorError TransferState :=
  match state, event with
  | .idle, .start _ _ => .ok .preparing
  | .preparing, .chunkCompleted _ => .ok (.transferring 0)
  | .transferring p, .chunkCompleted _ => .ok (.transferring p)
  | .transferring p, .chunkFailed _ _ => .ok (.transferring p)
  | .transferring _, .pause => .ok (.paused "User requested")
  | .paused _, .resume => .ok (.transferring 0)
  | .transferring _, .networkFailure pathId =>
      .ok (.paused ("Network failure on path: " ++ pathId))
  | .paused reason, .networkRecovered _ =>
      if strContains reason "Network failure" then .ok (.transferring 0)
      else .error (.invalidStateTransition "Cannot handle event in state")
  | .transferring _, .transferComplete => .ok .completing
  | .completing, _ => .ok .completed
  | _, .cancel => .ok (.failed "Cancelled by user")
  | _, _ => .error (.invalidStateTransition "Cannot handle event in state")

/-! ## Session store model (src/session/types.rs, src/session/store.rs) -/

/-- Rust struct FileManifest (src/chunk/types.rs).  The string fields
(file_id, filename), the priority and the BLAKE3 checksum are constant
payload never read by any claim and are omitted. -/
structure FileManifest where
  totalSize : ℕ
  chunkSize : ℕ
  totalChunks : ℕ
  dataChunks : ℕ
  parityChunks : ℕ
deriving DecidableEq, Repr

/-- Rust enum SessionStatus (src/session/types.rs). -/
inductive SessionStatus where
  | initializing
  | active
  | paused
  | completed
  | failed (reason : String)
deriving DecidableEq, Repr

/-- Rust SessionStatus::is_completed (src/session/types.rs). -/
def SessionStatus.isCompleted : SessionStatus → Bool
  | .completed => true
  | _ => false

/-- Rust struct SessionState (src/session/types.rs).  HashSet of u32 becomes
Finset of Nat.  The id strings, timestamps, receiver address, file path and
transfer metrics are never read by any claim and are omitted. -/
structure SessionState where
  manifest : FileManifest
  completedChunks : Finset ℕ
  failedChunks : Finset ℕ
  status : SessionStatus
deriving DecidableEq

/-- Rust SessionState::is_complete (src/session/types.rs line 185). -/
def SessionState.isComplete (s : SessionState) : Bool :=
  decide (s.manifest.dataChunks ≤ s.completedChunks.card)

/-- Rust SessionState::mark_completed (src/session/types.rs lines 189-193):
insert into the completed set, remove from the failed set. -/
def SessionState.markCompleted (s : SessionState) (chunkNumber : ℕ) : SessionState :=
  { s with
    completedChunks := insert chunkNumber s.completedChunks
    failedChunks := s.failedChunks.erase chunkNumber }

/-- Rust SessionState::mark_failed (src/session/types.rs lines 195-198):
insert into the failed set (the completed set is not touched). -/
def SessionState.markFailed (s : SessionState) (chunkNumber : ℕ) : SessionState :=
  { s with failedChunks := insert chunkNumber s.failedChunks }

/-- Rust SessionStore::mark_chunk_completed (src/session/store.rs lines
104-117): load the state, mark the chunk completed, auto-complete the session
when all data chunks are done, save.  The load/save round trip through
SQLite is modelled as the state transformer on the stored state. -/
def storeMarkChunkCompleted (s : SessionState) (chunkNumber : ℕ) : SessionState :=
  let s' := s.markCompleted chunkNumber
  if s'.isComplete && !s'.status.isCompleted then
    { s' with status := .completed }
  else s'

/-- Rust SessionStore::mark_chunk_failed (src/session/store.rs lines
120-127): load, mark failed, save. -/
def storeMarkChunkFailed (s : SessionState) (chunkNumber : ℕ) : SessionState :=
  s.markFailed chunkNumber

/-- One store operation on a session, for quantifying over operation
sequences. -/
inductive SessionOp where
  | complete (chunkNumber : ℕ)
  | fail (chunkNumber : ℕ)
deriving DecidableEq, Repr

/-- Apply one store operation. -/
def applySessionOp (s : SessionState) : SessionOp → SessionState
  | .complete n => storeMarkChunkCompleted s n
  | .fail n => storeMarkChunkFailed s n

/-- Apply a sequence of store operations. -/
def applySessionOps (s : SessionState) : List SessionOp → SessionState
  | [] => s
  | op :: rest => applySessionOps (applySessionOp s op) rest

/-- The invariant claimed by the spec for every session: the completed and
failed sets are disjoint and the completed set is no larger than the total
chunk count of the manifest. -/
def SessionInv (s : SessionState) : Prop :=
  Disjoint s.completedChunks s.failedChunks ∧
    s.completedChunks.card ≤ s.manifest.totalChunks

/-- The side conditions under which the code actually preserves SessionInv:
every completion names a chunk below the total and every failure names a
chunk that is not currently completed. -/
def ValidSessionOps (s : SessionState) : List SessionOp → Prop
  | [] => True
  | .complete n :: rest =>
      n < s.manifest.totalChunks ∧ ValidSessionOps (applySessionOp s (.complete n)) rest
  | .fail n :: rest =>
      n ∉ s.completedChunks ∧ ValidSessionOps (applySessionOp s (.fail n)) rest

/-- The inductive strengthening of SessionInv that the code actually
maintains: the completed set is disjoint from the failed set and contains
only chunk numbers below the total (sessions are created with both sets
empty, so every engine-created session satisfies this). -/
def SessionWF (s : SessionState) : Prop :=
  Disjoint s.completedChunks s.failedChunks ∧
    s.completedChunks ⊆ Finset.range s.manifest.totalChunks

/-! ## Bandwidth allocation (src/priority/types.rs lines 88-125) -/

/-- Rust struct BandwidthAllocation (src/priority/types.rs). -/
structure BandwidthAllocation where
  criticalBps : ℕ
  highBps : ℕ
  normalBps : ℕ
  totalBps : ℕ
deriving DecidableEq, Repr

/-- Rust BandwidthAllocation::new (src/priority/types.rs lines 89-125),
with the three sequential redistribution steps in source order.  All the
u64 divisions are integer divisions. -/
def BandwidthAllocation.new (totalBps criticalPending highPending normalPending : ℕ) :
    BandwidthAllocation :=
  let c0 := totalBps / 2
  let h0 := totalBps * 3 / 10
  let n0 := totalBps / 5
  let s1 : ℕ × ℕ × ℕ :=
    if criticalPending = 0 then (0, h0 + c0 / 2, n0 + c0 / 2) else (c0, h0, n0)
  let s2 : ℕ × ℕ × ℕ :=
    if highPending = 0 then (s1.1 + s1.2.1 / 2, 0, s1.2.2 + s1.2.1 / 2) else s1
  let s3 : ℕ × ℕ × ℕ :=
    if normalPending = 0 then (s2.1 + s2.2.2 / 2, s2.2.1 + s2.2.2 / 2, 0) else s2
  { criticalBps := s3.1, highBps := s3.2.1, normalBps := s3.2.2, totalBps := totalBps }

/-! ## Transport send with retry (src/network/quic_transport.rs lines 290-325) -/

/-- Rust enum NetworkError (src/network/error.rs); only the variants reachable
from send_with_retry are carried. -/
inductive NetworkError where
  | sendFailed (msg : String)
  | maxRetriesExceeded (attempts : ℕ)
deriving DecidableEq, Repr

/-- Loop body of Rust QuicTransport::send_with_retry.  The underlying
send_chunk call is abstracted as a boolean oracle indexed by the attempt
number (true = that send succeeds).  The Rust loop variable attempts starts
at 0 and the loop retries while attempts < max_retries; the structural fuel
argument is maxRetries - attempts, so the two arguments together replay the
source loop exactly.  On success the returned value is the total number of
send attempts consumed (the Rust function returns unit; the count is the
quantity the claim speaks about). -/
def sendWithRetryGo (send : ℕ → Bool) (maxRetries : ℕ) :
    ℕ → ℕ → Except NetworkError ℕ
  | attempts, 0 =>
      if send attempts then .ok (attempts + 1)
      else .error (.maxRetriesExceeded maxRetries)
  | attempts, remaining + 1 =>
      if send attempts then .ok (attempts + 1)
      else sendWithRetryGo send maxRetries (attempts + 1) remaining

/-- Rust QuicTransport::send_with_retry (src/network/quic_transport.rs lines
290-325): attempts = 0, then loop.  Backoff sleeps are timing only and are
not modelled. -/
def sendWithRetry (send : ℕ → Bool) (maxRetries : ℕ) : Except NetworkError ℕ :=
  sendWithRetryGo send maxRetries 0 maxRetries

/-! ## Priority queue (src/priority/queue.rs, src/priority/types.rs) -/

/-- Rust enum QueueError (src/priority/error.rs); the variants reachable from
enqueue and dequeue. -/
inductive QueueError where
  | queueFull (capacity : ℕ)
  | queueEmpty
deriving DecidableEq, Repr

/-- The part of a queued chunk that the queue order and the claims read:
its priority and its sequence number.  The remaining ChunkMetadata fields
(ids, sizes, checksum, timestamps) are payload the queue never inspects,
except that file_id takes part in QueuedChunk::eq, which the scheduler never
calls. -/
structure QChunk where
  priority : Priority
  seq : ℕ
deriving DecidableEq, Repr

/-- Rust PriorityQueue::priority_to_index (src/priority/queue.rs lines
214-220). -/
def priorityIdx : Priority → ℕ
  | .critical => 0
  | .high => 1
  | .normal => 2

/-- Rust PriorityQueue::index_to_priority (src/priority/queue.rs lines
222-228). -/
def indexToPriority : ℕ → Priority
  | 0 => .critical
  | 1 => .high
  | _ => .normal

/-- Pop a minimal element from a list, returning it and the remaining
elements.  This models BinaryHeap::pop under the QueuedChunk ordering
(src/priority/types.rs lines 43-53): the comparison reverses on
sequence_number, so the max-heap pops a chunk of minimal sequence number.
Elements comparing equal are popped in an unspecified order in Rust; this
determinisation pops the earliest of them. -/
def popMin : List ℕ → Option (ℕ × List ℕ)
  | [] => none
  | a :: rest =>
      match popMin rest with
      | none => some (a, [])
      | some (m, rest') => if a ≤ m then some (a, rest) else some (m, a :: rest')

/-- Rust struct PriorityQueue (src/priority/queue.rs lines 11-15): one heap
per priority level plus the capacity.  Each heap is modelled as the list of
queued sequence numbers.  The QueueStats record is parallel bookkeeping that
never feeds back into enqueue, dequeue or peek and is omitted. -/
structure PQueue where
  criticalQ : List ℕ
  highQ : List ℕ
  normalQ : List ℕ
  maxCapacity : ℕ
deriving DecidableEq, Repr

/-- Rust PriorityQueue::new (src/priority/queue.rs lines 18-28). -/
def PQueue.newQueue (maxCapacity : ℕ) : PQueue :=
  { criticalQ := [], highQ := [], normalQ := [], maxCapacity := maxCapacity }

/-- Rust PriorityQueue::total_pending (src/priority/queue.rs lines 162-164):
the sum of the three heap sizes. -/
def PQueue.totalPending (q : PQueue) : ℕ :=
  q.criticalQ.length + q.highQ.length + q.normalQ.length

/-- Rust PriorityQueue::enqueue (src/priority/queue.rs lines 31-59): reject
with QueueFull when total_pending has reached max_capacity, otherwise push
onto the heap of the chunk priority. -/
def PQueue.enqueue (q : PQueue) (c : QChunk) : Except QueueError PQueue :=
  if q.maxCapacity ≤ q.totalPending then .error (.queueFull q.maxCapacity)
  else
    .ok (match c.priority with
      | .critical => { q with criticalQ := c.seq :: q.criticalQ }
      | .high => { q with highQ := c.seq :: q.highQ }
      | .normal => { q with normalQ := c.seq :: q.normalQ })

/-- Rust PriorityQueue::dequeue (src/priority/queue.rs lines 62-100): scan
the levels Critical, High, Normal in order and pop the first non-empty heap.
The stats updates in the source touch only the stats record. -/
def PQueue.dequeue (q : PQueue) : Except QueueError (QChunk × PQueue) :=
  match popMin q.criticalQ with
  | some (m, rest) => .ok (⟨.critical, m⟩, { q with criticalQ := rest })
  | none =>
    match popMin q.highQ with
    | some (m, rest) => .ok (⟨.high, m⟩, { q with highQ := rest })
    | none =>
      match popMin q.normalQ with
      | some (m, rest) => .ok (⟨.normal, m⟩, { q with normalQ := rest })
      | none => .error .queueEmpty

/-- Rust PriorityQueue::peek (src/priority/queue.rs lines 195-203): return
the priority of the first non-empty level without touching any heap (the
source takes only read locks). -/
def PQueue.peek (q : PQueue) : Option Priority :=
  if ¬q.criticalQ.isEmpty then some (indexToPriority 0)
  else if ¬q.highQ.isEmpty then some (indexToPriority 1)
  else if ¬q.normalQ.isEmpty then some (indexToPriority 2)
  else none

/-- Drain the queue by repeated dequeue until it reports QueueEmpty, listing
the chunks in pop order.  Each successful dequeue removes exactly one
element, so totalPending steps of the loop suffice; the fuel argument makes
the recursion structural. -/
def dequeueAllGo : ℕ → PQueue → List QChunk
  | 0, _ => []
  | fuel + 1, q =>
      match q.dequeue with
      | .ok (c, q') => c :: dequeueAllGo fuel q'
      | .error _ => []

/-- All chunks a drain loop pops from the queue, in pop order. -/
def PQueue.dequeueAll (q : PQueue) : List QChunk :=
  dequeueAllGo q.totalPending q

/-- Enqueue a list of chunks one by one, stopping at the first error (the
error of the failing enqueue is returned, as a caller looping over
enqueue would see it). -/
def enqueueList (q : PQueue) : List QChunk → Except QueueError PQueue
  | [] => .ok q
  | c :: rest =>
      match q.enqueue c with
      | .ok q' => enqueueList q' rest
      | .error e => .error e

/-- The multiset of chunks currently queued, listed level by level. -/
def PQueue.chunks (q : PQueue) : List QChunk :=
  q.criticalQ.map (QChunk.mk .critical) ++ q.highQ.map (QChunk.mk .high) ++
    q.normalQ.map (QChunk.mk .normal)

/-- Scheduler order on chunks: lexicographic on (priority index, sequence
number), non-strict. -/
def QChunk.keyLE (a b : QChunk) : Prop :=
  priorityIdx a.priority < priorityIdx b.priority ∨
    (priorityIdx a.priority = priorityIdx b.priority ∧ a.seq ≤ b.seq)

/-- Scheduler order on chunks: lexicographic on (priority index, sequence
number), strict. -/
def QChunk.keyLT (a b : QChunk) : Prop :=
  priorityIdx a.priority < priorityIdx b.priority ∨
    (priorityIdx a.priority = priorityIdx b.priority ∧ a.seq < b.seq)

/-- One client operation on the queue, for quantifying over histories. -/
inductive QOp where
  | enq (c : QChunk)
  | deq
deriving DecidableEq, Repr

/-- Apply one operation; a failed operation leaves the queue unchanged, as
in the source (enqueue returns before touching a heap, dequeue pops
nothing). -/
def applyQOp (q : PQueue) : QOp → PQueue
  | .enq c =>
      match q.enqueue c with
      | .ok q' => q'
      | .error _ => q
  | .deq =>
      match q.dequeue with
      | .ok (_, q') => q'
      | .error _ => q

/-- Apply a history of operations in order. -/
def applyQOps (q : PQueue) : List QOp → PQueue
  | [] => q
  | op :: rest => applyQOps (applyQOp q op) rest

/-! ## The erasure codec (src/chunk/erasure.rs) and its Reed-Solomon layer

The arithmetic inside reed_solomon_erasure::galois_8::ReedSolomon is not part
of this repository; per the specification it is a systematic
maximum-distance-separable code: "Reed-Solomon over GF(2^8): a
Maximum-Distance-Separable code where any D of D+P shards suffice to
reconstruct the original D", with the total shard count bounded by the field
size.  It is modelled here, from those words, as the systematic evaluation
code over the prime field with 257 elements (the smallest computable field
that embeds byte values exactly): the D data shards are the values of a
polynomial of degree below D at the nodes 0..D-1, parity shard i is its value
at node i, and reconstruction interpolates any D surviving shards.  The
theorems below prove that this model satisfies exactly the contract the
specification states. -/

/-- Rust enum ChunkError (src/chunk/error.rs).  The io::Error payload is
reduced to a message string. -/
inductive ChunkError where
  | io (msg : String)
  | erasureCoding (msg : String)
  | insufficientChunks (needed available : ℕ)
  | invalidChunkSize (msg : String)
  | checksumMismatch (fileId : String)
  | invalidShardSize
deriving DecidableEq, Repr

/-- The 257-element prime field carrying the Reed-Solomon model. -/
abbrev F257 := ZMod 257

instance : Fact (Nat.Prime 257) := ⟨by norm_num⟩

/-- Kernel-computable field inverse on F257, by Fermat: a ^ 255 = a⁻¹
(cf. finv_eq_inv below), with the power spelled out by repeated squaring so
that closed evaluation stays shallow.  The library inverse on ZMod unfolds
through well-founded recursion, which closed evaluation cannot reduce. -/
def finv (a : F257) : F257 :=
  let a2 := a * a
  let a4 := a2 * a2
  let a8 := a4 * a4
  let a16 := a8 * a8
  let a32 := a16 * a16
  let a64 := a32 * a32
  let a128 := a64 * a64
  a128 * a64 * a32 * a16 * a8 * a4 * a2 * a

/-- Computable Lagrange interpolation: the value at x of the unique
polynomial of degree < m through the points (v i, r i). -/
def lagEval (m : ℕ) (v r : Fin m → F257) (x : F257) : F257 :=
  ∑ i : Fin m, r i * ∏ j ∈ Finset.univ.erase i, ((x - v j) * finv (v i - v j))

/-- Pair each list element with its index, starting at i. -/
def withIdx (i : ℕ) : List α → List (ℕ × α)
  | [] => []
  | a :: rest => (i, a) :: withIdx (i + 1) rest

/-- The present shards of a partial shard vector, each with its position,
positions counted from i. -/
def presentFrom (i : ℕ) : List (Option α) → List (ℕ × α)
  | [] => []
  | none :: rest => presentFrom (i + 1) rest
  | some a :: rest => (i, a) :: presentFrom (i + 1) rest

/-- Modelled from the spec: byte t of the code shard at node x, interpolated
through the shards pts (each a position paired with its bytes). -/
def rsColEval (pts : List (ℕ × List ℕ)) (t : ℕ) (x : ℕ) : ℕ :=
  (lagEval pts.length (fun j => ((pts.get j).1 : F257))
    (fun j => (((pts.get j).2.getD t 0 : ℕ) : F257)) (x : F257)).val

/-- Modelled from the spec: ReedSolomon::encode of the reed_solomon_erasure
crate.  It requires exactly data + parity shards of one common non-zero
size (the crate errors TooFewShards / TooManyShards / EmptyShard /
IncorrectShardSize otherwise, which ErasureCoder::encode maps to
ChunkError::ErasureCoding), leaves the data shards untouched and fills the
parity shards; here parity shard j holds the code values at node d + j. -/
def rsEncode (d p : ℕ) (shards : List (List ℕ)) : Except ChunkError (List (List ℕ)) :=
  if shards.length ≠ d + p then .error (.erasureCoding "wrong number of shards")
  else
    let sz := (shards.headD []).length
    if sz = 0 then .error (.erasureCoding "empty shard")
    else if shards.any (fun s => s.length ≠ sz) then
      .error (.erasureCoding "incorrect shard size")
    else
      let dataShards := shards.take d
      let pts := withIdx 0 dataShards
      .ok (dataShards ++ (List.range p).map (fun j =>
        (List.range sz).map (fun t => rsColEval pts t (d + j))))

/-- Fill the missing entries of a partial shard vector: present shards are
kept, absent ones are interpolated from the chosen points pts; positions are
counted from i. -/
def fillFrom (pts : List (ℕ × List ℕ)) (sz : ℕ) (i : ℕ) :
    List (Option (List ℕ)) → List (List ℕ)
  | [] => []
  | some s :: rest => s :: fillFrom pts sz (i + 1) rest
  | none :: rest =>
      (List.range sz).map (fun t => rsColEval pts t i) :: fillFrom pts sz (i + 1) rest

/-- Modelled from the spec: ReedSolomon::reconstruct of the
reed_solomon_erasure crate.  It requires the full-length shard vector with
uniformly sized non-empty present shards, and rebuilds every missing shard
from any data-count many present ones (the caller has already checked that
enough are present). -/
def rsReconstruct (d p : ℕ) (shards : List (Option (List ℕ))) :
    Except ChunkError (List (List ℕ)) :=
  if shards.length ≠ d + p then .error (.erasureCoding "wrong number of shards")
  else
    let present := presentFrom 0 shards
    let sz := (present.headD (0, [])).2.length
    if sz = 0 then .error (.erasureCoding "empty shard")
    else if present.any (fun q => q.2.length ≠ sz) then
      .error (.erasureCoding "incorrect shard size")
    else .ok (fillFrom (present.take d) sz 0 shards)

/-- The value rsEncode produces on well-formed input: the data shards
followed by the p parity shards, parity shard j holding the code values at
node d + j for every byte position. -/
def rsCodeword (d p : ℕ) (dataShards : List (List ℕ)) (sz : ℕ) : List (List ℕ) :=
  dataShards ++ (List.range p).map (fun j =>
    (List.range sz).map (fun t => rsColEval (withIdx 0 dataShards) t (d + j)))

/-- Rust struct ErasureCoder (src/chunk/erasure.rs lines 6-9). -/
structure ErasureCoder where
  dataShards : ℕ
  parityShards : ℕ
deriving DecidableEq, Repr

/-- Rust ErasureCoder::new (src/chunk/erasure.rs lines 12-22). -/
def ErasureCoder.new (dataShards parityShards : ℕ) : Except ChunkError ErasureCoder :=
  if dataShards = 0 || parityShards = 0 then
    .error (.invalidChunkSize "Data and parity shards must be > 0")
  else .ok ⟨dataShards, parityShards⟩

/-- The shard size chosen by ErasureCoder::encode (src/chunk/erasure.rs line
34): the maximum chunk length, 0 for no chunks. -/
def maxLen (chunks : List (List ℕ)) : ℕ :=
  (chunks.map List.length).foldr max 0

/-- Padding of one chunk inside ErasureCoder::prepare_shards
(src/chunk/erasure.rs lines 86-92): resize up to the shard size with zero
bytes, longer chunks untouched. -/
def padTo (c : List ℕ) (n : ℕ) : List ℕ :=
  if c.length < n then c ++ List.replicate (n - c.length) 0 else c

/-- The data half of the prepared shard vector: the chunks padded to the
shard size, then zero shards up to the data-shard count. -/
def paddedData (d : ℕ) (chunks : List (List ℕ)) (sz : ℕ) : List (List ℕ) :=
  chunks.map (padTo · sz) ++ List.replicate (d - chunks.length) (List.replicate sz 0)

/-- Rust ErasureCoder::prepare_shards (src/chunk/erasure.rs lines 82-105):
pad each data chunk to the shard size, pad the shard count up to data_shards
with zero shards, append parity_shards empty parity shards. -/
def ErasureCoder.prepareShards (c : ErasureCoder) (dataChunks : List (List ℕ))
    (shardSize : ℕ) : List (List ℕ) :=
  dataChunks.map (padTo · shardSize) ++
    List.replicate (c.dataShards - dataChunks.length) (List.replicate shardSize 0) ++
    List.replicate c.parityShards (List.replicate shardSize 0)

/-- Rust ErasureCoder::encode (src/chunk/erasure.rs lines 25-43): empty input
returns no shards at all; otherwise build the ReedSolomon codec (which the
crate rejects when data + parity exceeds the GF(2^8) bound of 256 shards),
prepare the shards and encode. -/
def ErasureCoder.encode (c : ErasureCoder) (dataChunks : List (List ℕ)) :
    Except ChunkError (List (List ℕ)) :=
  if dataChunks.isEmpty then .ok []
  else if 256 < c.dataShards + c.parityShards then
    .error (.erasureCoding "too many shards")
  else
    rsEncode c.dataShards c.parityShards
      (c.prepareShards dataChunks (maxLen dataChunks))

/-- Rust ErasureCoder::decode (src/chunk/erasure.rs lines 46-79): empty input
returns no shards; count the present shards and reject with
InsufficientChunks below data_shards; otherwise reconstruct and return the
leading data_shards shards (all present after reconstruction). -/
def ErasureCoder.decode (c : ErasureCoder) (chunks : List (Option (List ℕ))) :
    Except ChunkError (List (List ℕ)) :=
  if chunks.isEmpty then .ok []
  else if 256 < c.dataShards + c.parityShards then
    .error (.erasureCoding "too many shards")
  else
    let presentCount := chunks.countP (fun s => s.isSome)
    if presentCount < c.dataShards then
      .error (.insufficientChunks c.dataShards presentCount)
    else do
      let reconstructed ← rsReconstruct c.dataShards c.parityShards chunks
      pure (reconstructed.take c.dataShards)

/-! ## Chunk manager (src/chunk/manager.rs) -/

/-- Rust struct ChunkManager (src/chunk/manager.rs lines 12-18).  The stored
parity_ratio field is parity_shards as f64 / data_shards as f64; it is only
read to compute the adaptive parity count, and parityRatio below recomputes
it there from the two shard counts, so the ratio itself is not stored. -/
structure ChunkManager where
  chunkSize : ℕ
  dataShards : ℕ
  parityShards : ℕ
deriving DecidableEq, Repr

/-- Rust ChunkManager::new (src/chunk/manager.rs lines 21-29). -/
def ChunkManager.new (chunkSize dataShards parityShards : ℕ) :
    Except ChunkError ChunkManager :=
  match ErasureCoder.new dataShards parityShards with
  | .ok _ => .ok ⟨chunkSize, dataShards, parityShards⟩
  | .error e => .error e

/-- The chunking loop of ChunkManager::split_file (src/chunk/manager.rs lines
54-62): successive blocks of size bytes, only the last may be shorter.  The
Rust loop does not terminate when size = 0 and the data is non-empty; the
model returns [] there and every theorem about it carries 0 < size. -/
def splitChunks (data : List ℕ) (size : ℕ) : List (List ℕ) :=
  if h : size = 0 ∨ data = [] then []
  else data.take size :: splitChunks (data.drop size) size
termination_by data.length
decreasing_by
  simp only [List.length_drop]
  have hsz : size ≠ 0 := fun hs => h (Or.inl hs)
  have hd : data ≠ [] := fun hd => h (Or.inr hd)
  have : 0 < data.length := List.length_pos.mpr hd
  omega

/-- Fuel-driven floor of the base-2 logarithm: natLog2Go fuel n descends
through halvings. -/
def natLog2Go : ℕ → ℕ → ℕ
  | 0, _ => 0
  | fuel + 1, n => if n ≤ 1 then 0 else natLog2Go fuel (n / 2) + 1

/-- Floor of the base-2 logarithm of a positive natural. -/
def natLog2 (n : ℕ) : ℕ := natLog2Go n n

/-- Round the fraction N / Dd to the nearest natural, ties to even (the IEEE
default rounding direction), computed with integer division. -/
def rneNat (N Dd : ℕ) : ℕ :=
  let f := N / Dd
  let r := N % Dd
  if 2 * r < Dd then f
  else if Dd < 2 * r then f + 1
  else if f % 2 = 0 then f else f + 1

/-- The binade of a positive rational: the e with 2 ^ e ≤ q < 2 ^ (e + 1),
decided by an integer comparison so that kernel reduction goes through. -/
def qexp (q : ℚ) : ℤ :=
  let n := q.num.toNat
  let d := q.den
  let e0 : ℤ := (natLog2 n : ℤ) - (natLog2 d : ℤ)
  if 2 ^ e0.toNat * d ≤ 2 ^ (-e0).toNat * n then e0 else e0 - 1

/-- Rounding a nonnegative rational to the nearest IEEE binary64 value
(53-bit significand, round to nearest, ties to even), with unbounded
exponent range: every value arising here (shard counts below 2 ^ 64 and
their ratios, all between 2 ^ (-64) and 2 ^ 128) lies well inside the
normal binary64 range, where this is exactly the IEEE rounding. -/
def floatRound (q : ℚ) : ℚ :=
  if q ≤ 0 then 0
  else
    let e := qexp q
    let m := rneNat (q.num.toNat * 2 ^ (52 - e).toNat) (q.den * 2 ^ (e - 52).toNat)
    mkRat (m * 2 ^ (e - 52).toNat) (2 ^ (52 - e).toNat)

/-- Product of two rationals through mkRat (definitionally transparent,
unlike the Rat multiplication instance). -/
def qmul (a b : ℚ) : ℚ := mkRat (a.num * b.num) (a.den * b.den)

/-- Quotient of a rational by a positive rational through mkRat. -/
def qdiv (a b : ℚ) : ℚ := mkRat (a.num * b.den) (a.den * b.num.toNat)

/-- The ceiling of a nonnegative rational as a natural number. -/
def ceilNat (v : ℚ) : ℕ := (v.num.toNat + v.den - 1) / v.den

/-- The stored parity_ratio field of ChunkManager (src/chunk/manager.rs line
23): parity_shards as f64 / data_shards as f64, both conversions and the
division rounding to nearest binary64. -/
def parityRatio (d p : ℕ) : ℚ :=
  floatRound (qdiv (floatRound (p : ℚ)) (floatRound (d : ℚ)))

/-- The adaptive parity count of ChunkManager::split_file (src/chunk/manager.rs
lines 72-78): ceil(adaptive_data as f64 * parity_ratio) floored at one parity
shard, where adaptive_data = max(actual, 1); the conversion, the product
rounding and the exact f64 ceil are reproduced by floatRound. -/
def adaptiveParity (d p actual : ℕ) : ℕ :=
  max (ceilNat (floatRound (qmul (floatRound ((max actual 1 : ℕ) : ℚ))
    (parityRatio d p)))) 1

/-- Rust ChunkManager::split_file (src/chunk/manager.rs lines 36-139): split
into raw chunks, choose the adaptive coder when the actual chunk count is
below data_shards / 2, encode, and assemble the manifest.  File reading, the
BLAKE3 hashes and the per-shard ChunkMetadata records are dead data for the
claims and are not modelled; the returned list holds the encoded shard bytes. -/
def ChunkManager.splitFile (m : ChunkManager) (fileData : List ℕ) :
    Except ChunkError (FileManifest × List (List ℕ)) := do
  let dataChunksVec := splitChunks fileData m.chunkSize
  let actual := dataChunksVec.length
  let useAdaptive := actual < m.dataShards / 2
  let coder ←
    if useAdaptive then
      ErasureCoder.new (max actual 1) (adaptiveParity m.dataShards m.parityShards actual)
    else
      ErasureCoder.new m.dataShards m.parityShards
  let encoded ← coder.encode dataChunksVec
  pure ({ totalSize := fileData.length
          chunkSize := m.chunkSize
          totalChunks := encoded.length
          dataChunks := coder.dataShards
          parityChunks := coder.parityShards }, encoded)

/-! # Theorems -/

/-! ## Claim C3: Cancel from every state -/

/-- Claim C3 as stated is false: the match arm for Completing precedes the
Cancel arm, so Cancel in state Completing succeeds but lands in Completed,
not in Failed("Cancelled by user"). -/
theorem C3_counterexample :
    transition .completing .cancel = .ok .completed ∧
      transition .completing .cancel ≠ .ok (.failed "Cancelled by user") := by
  decide

/-- Claim C3, amended: for every state other than Completing, Cancel succeeds
and yields Failed("Cancelled by user"); from Completing, Cancel succeeds and
yields Completed. -/
theorem C3_cancel_amended (s : TransferState) :
    (s ≠ .completing → transition s .cancel = .ok (.failed "Cancelled by user")) ∧
      transition .completing .cancel = .ok .completed := by
  refine ⟨fun hs => ?_, rfl⟩
  cases s <;> first
    | rfl
    | exact absurd rfl hs

/-- Witness for C3_cancel_amended at the states Idle and Transferring. -/
theorem C3_cancel_amended_witness :
    transition .idle .cancel = .ok (.failed "Cancelled by user") ∧
      transition (.transferring 0) .cancel = .ok (.failed "Cancelled by user") :=
  ⟨(C3_cancel_amended .idle).1 (by decide),
    (C3_cancel_amended (.transferring 0)).1 (by intro h; cases h)⟩

/-! ## Claim C9: behaviour at Idle and at the terminal states -/

/-- Claim C9 as stated is false on three counts: from Idle the Cancel event
(not only Start) changes the state to Failed; from Completed the Cancel
event changes the state to Failed; and Cancel in Completing lands in
Completed, not Failed. -/
theorem C9_counterexample :
    transition .idle .cancel = .ok (.failed "Cancelled by user") ∧
      transition .completed .cancel = .ok (.failed "Cancelled by user") ∧
      transition .completing .cancel = .ok .completed := by
  decide

/-- Claim C9, amended: from Idle every event other than Start and Cancel is
rejected (the machine keeps its state on a rejected event); from Completed or
Failed every event other than Cancel is rejected, while Cancel moves those
states to Failed("Cancelled by user"); and in Completing every event --
Cancel included -- is accepted and lands in Completed. -/
theorem C9_terminal_amended (e : TransferEvent) :
    ((∀ fp pr, e ≠ .start fp pr) → e ≠ .cancel →
      transition .idle e = .error (.invalidStateTransition "Cannot handle event in state")) ∧
    (e ≠ .cancel →
      transition .completed e =
        .error (.invalidStateTransition "Cannot handle event in state")) ∧
    (∀ msg, e ≠ .cancel →
      transition (.failed msg) e =
        .error (.invalidStateTransition "Cannot handle event in state")) ∧
    transition .idle .cancel = .ok (.failed "Cancelled by user") ∧
    transition .completed .cancel = .ok (.failed "Cancelled by user") ∧
    (∀ msg, transition (.failed msg) .cancel = .ok (.failed "Cancelled by user")) ∧
    transition .completing e = .ok .completed := by
  refine ⟨fun hs hc => ?_, fun hc => ?_, fun msg hc => ?_, rfl, rfl, fun msg => rfl, ?_⟩ <;>
    cases e <;> first
      | rfl
      | exact absurd rfl hc
      | exact absurd rfl (hs _ _)

/-- Witness for C9_terminal_amended at the event Pause. -/
theorem C9_terminal_amended_witness :
    transition .idle .pause =
        .error (.invalidStateTransition "Cannot handle event in state") ∧
      transition .completed .pause =
        .error (.invalidStateTransition "Cannot handle event in state") ∧
      transition (.failed "boom") .pause =
        .error (.invalidStateTransition "Cannot handle event in state") ∧
      transition .completing .pause = .ok .completed :=
  ⟨(C9_terminal_amended .pause).1 (fun _ _ h => nomatch h) (fun h => nomatch h),
    (C9_terminal_amended .pause).2.1 (fun h => nomatch h),
    (C9_terminal_amended .pause).2.2.1 "boom" (fun h => nomatch h),
    (C9_terminal_amended .pause).2.2.2.2.2.2⟩

/-! ## Claims C2 and C4: session sets and auto-completion -/

/-- Store operations never change the manifest. -/
theorem applySessionOp_manifest (s : SessionState) (op : SessionOp) :
    (applySessionOp s op).manifest = s.manifest := by
  cases op with
  | complete n =>
      simp only [applySessionOp, storeMarkChunkCompleted]
      split <;> rfl
  | fail n => rfl

/-- The completed set after a store completion mark. -/
theorem storeMarkChunkCompleted_completed (s : SessionState) (n : ℕ) :
    (storeMarkChunkCompleted s n).completedChunks = insert n s.completedChunks := by
  simp only [storeMarkChunkCompleted]
  split <;> rfl

/-- The failed set after a store completion mark. -/
theorem storeMarkChunkCompleted_failed (s : SessionState) (n : ℕ) :
    (storeMarkChunkCompleted s n).failedChunks = s.failedChunks.erase n := by
  simp only [storeMarkChunkCompleted]
  split <;> rfl

/-- One valid store operation preserves the well-formedness of the session
sets. -/
theorem sessionWF_step (s : SessionState) (op : SessionOp) (hwf : SessionWF s)
    (hop : match op with
      | .complete n => n < s.manifest.totalChunks
      | .fail n => n ∉ s.completedChunks) :
    SessionWF (applySessionOp s op) := by
  obtain ⟨hdisj, hsub⟩ := hwf
  cases op with
  | complete n =>
      refine ⟨?_, ?_⟩
      · simp only [applySessionOp]
        rw [storeMarkChunkCompleted_completed, storeMarkChunkCompleted_failed]
        rw [Finset.disjoint_left]
        intro a ha hb
        rcases Finset.mem_insert.mp ha with rfl | ha
        · exact absurd (Finset.mem_erase.mp hb).1 (fun hh => hh rfl)
        · exact Finset.disjoint_left.mp hdisj ha (Finset.mem_of_mem_erase hb)
      · rw [applySessionOp_manifest]
        simp only [applySessionOp]
        rw [storeMarkChunkCompleted_completed]
        intro a ha
        rcases Finset.mem_insert.mp ha with rfl | ha
        · exact Finset.mem_range.mpr hop
        · exact hsub ha
  | fail n =>
      refine ⟨?_, hsub⟩
      simp only [applySessionOp, storeMarkChunkFailed, SessionState.markFailed]
      rw [Finset.disjoint_left]
      intro a ha hb
      rcases Finset.mem_insert.mp hb with rfl | hb
      · exact hop ha
      · exact Finset.disjoint_left.mp hdisj ha hb

/-- Well-formed session sets satisfy the claimed invariant. -/
theorem sessionWF_inv (s : SessionState) (h : SessionWF s) : SessionInv s :=
  ⟨h.1, le_trans (Finset.card_le_card h.2) (le_of_eq (Finset.card_range _))⟩

/-- Claim C2 as stated is false on two counts.  First, mark_chunk_failed does
not remove the chunk from the completed set, so completing chunk 0 and then
failing chunk 0 leaves the two sets sharing an element (manifest of the store
test suite: 13 total, 10 data).  Second, mark_chunk_completed accepts any
sequence number, so completing the out-of-range chunk 5 of a one-chunk
session pushes the completed cardinality above the total. -/
theorem C2_counterexample :
    ¬ SessionInv (applySessionOps
        ⟨⟨1048576, 262144, 13, 10, 3⟩, ∅, ∅, .active⟩ [.complete 0, .fail 0]) ∧
      ¬ SessionInv (applySessionOps
        ⟨⟨4, 4, 1, 1, 0⟩, ∅, ∅, .active⟩ [.complete 0, .complete 5]) := by
  constructor
  · intro h
    exact absurd h.1 (by decide)
  · intro h
    exact absurd h.2 (by decide)

/-- Claim C2, amended: for every session whose completed set is disjoint from
its failed set and contains only chunk numbers below the manifest total (as
every freshly created session does), and every operation sequence in which
each completion names a chunk below the total and each failure names a chunk
not currently completed, the invariant completed-disjoint-from-failed and
completed-count at most total holds at all times, i.e. after every prefix of
the sequence. -/
theorem C2_invariant_amended (s : SessionState) (pre suf : List SessionOp)
    (hwf : SessionWF s) (hv : ValidSessionOps s (pre ++ suf)) :
    SessionInv (applySessionOps s pre) := by
  induction pre generalizing s with
  | nil => exact sessionWF_inv s hwf
  | cons op rest ih =>
      have hstep : SessionWF (applySessionOp s op) := by
        refine sessionWF_step s op hwf ?_
        cases op with
        | complete n => exact (by exact hv.1 : n < s.manifest.totalChunks)
        | fail n => exact (by exact hv.1 : n ∉ s.completedChunks)
      cases op with
      | complete n => exact ih (applySessionOp s (.complete n)) hstep hv.2
      | fail n => exact ih (applySessionOp s (.fail n)) hstep hv.2

/-- Witness for C2_invariant_amended: a fresh session with the store-test
manifest, completing chunk 0 and then failing chunk 1. -/
theorem C2_invariant_amended_witness :
    SessionInv (applySessionOps
      ⟨⟨1048576, 262144, 13, 10, 3⟩, ∅, ∅, .active⟩ [.complete 0]) :=
  C2_invariant_amended ⟨⟨1048576, 262144, 13, 10, 3⟩, ∅, ∅, .active⟩
    [.complete 0] [.fail 1]
    (by constructor <;> decide)
    (by
      refine ⟨by decide, ?_, trivial⟩
      decide)

/-- Claim C4, confirmed: a mark_chunk_completed call whose insertion brings
the completed count to at least the data-shard count upgrades a
not-yet-Completed status to Completed, and a call that leaves the count below
the data-shard count leaves the status field untouched. -/
theorem C4_auto_complete (s : SessionState) (seq : ℕ) :
    (s.manifest.dataChunks ≤ (insert seq s.completedChunks).card →
      s.status ≠ .completed →
      (storeMarkChunkCompleted s seq).status = .completed) ∧
    ((insert seq s.completedChunks).card < s.manifest.dataChunks →
      (storeMarkChunkCompleted s seq).status = s.status) := by
  constructor
  · intro hcard hstat
    simp only [storeMarkChunkCompleted, SessionState.markCompleted, SessionState.isComplete,
      SessionStatus.isCompleted]
    have hc : decide (s.manifest.dataChunks ≤ (insert seq s.completedChunks).card) = true :=
      decide_eq_true hcard
    simp only [hc, Bool.true_and]
    split
    · rfl
    · rename_i hfalse
      rw [Bool.not_eq_true'] at hfalse
      exfalso
      revert hfalse
      cases hst : s.status <;> simp_all
  · intro hcard
    simp only [storeMarkChunkCompleted, SessionState.markCompleted, SessionState.isComplete,
      SessionStatus.isCompleted]
    have hc : decide (s.manifest.dataChunks ≤ (insert seq s.completedChunks).card) = false :=
      decide_eq_false (Nat.not_le.mpr hcard)
    simp [hc]

/-- Witness for C4_auto_complete: a one-data-chunk session that completes on
marking chunk 0, and a ten-data-chunk session whose status is untouched. -/
theorem C4_auto_complete_witness :
    (storeMarkChunkCompleted ⟨⟨4, 4, 2, 1, 1⟩, ∅, ∅, .active⟩ 0).status = .completed ∧
      (storeMarkChunkCompleted ⟨⟨1048576, 262144, 13, 10, 3⟩, ∅, ∅, .active⟩ 0).status =
        .active :=
  ⟨(C4_auto_complete ⟨⟨4, 4, 2, 1, 1⟩, ∅, ∅, .active⟩ 0).1 (by decide) (by decide),
    (C4_auto_complete ⟨⟨1048576, 262144, 13, 10, 3⟩, ∅, ∅, .active⟩ 0).2 (by decide)⟩

/-! ## Claim C7: bandwidth allocation -/

/-- Claim C7 as stated is false on two counts.  With total 7 and all levels
non-empty the integer divisions 7/2 + 7*3/10 + 7/5 = 3 + 2 + 1 sum to 6, not
7.  And with Critical and High empty the share of an empty level is not
redistributed to the remaining non-empty levels: the empty Critical level
ends up with 2 bps because the High redistribution hands half of the pot
back to it. -/
theorem C7_counterexample :
    ((BandwidthAllocation.new 7 1 1 1).criticalBps +
        (BandwidthAllocation.new 7 1 1 1).highBps +
        (BandwidthAllocation.new 7 1 1 1).normalBps = 6 ∧
      (BandwidthAllocation.new 7 1 1 1).totalBps = 7) ∧
      (BandwidthAllocation.new 10 0 0 1).criticalBps = 2 := by
  decide

/-- Claim C7, amended: the three level allocations always sum to at most
total_bps, with equality whenever total_bps is divisible by 10 and no level
is empty; an empty level is zeroed and its current share is halved and added
to each of the two other levels in the fixed order Critical, High, Normal,
regardless of whether those levels are empty (so integer rounding and
re-donation to empty levels can lose the exact-sum property). -/
theorem C7_allocation_amended (t c h n : ℕ) :
    ((BandwidthAllocation.new t c h n).criticalBps +
        (BandwidthAllocation.new t c h n).highBps +
        (BandwidthAllocation.new t c h n).normalBps ≤ t) ∧
      (t % 10 = 0 → c ≠ 0 → h ≠ 0 → n ≠ 0 →
        (BandwidthAllocation.new t c h n).criticalBps +
          (BandwidthAllocation.new t c h n).highBps +
          (BandwidthAllocation.new t c h n).normalBps = t) ∧
      (BandwidthAllocation.new t c h n).totalBps = t := by
  refine ⟨?_, ?_, ?_⟩
  · simp only [BandwidthAllocation.new]
    split <;> split <;> split <;> simp <;> omega
  · intro ht hc hh hn
    simp only [BandwidthAllocation.new, if_neg hc, if_neg hh, if_neg hn]
    omega
  · rfl

/-- Witness for C7_allocation_amended at total 20 with every level busy. -/
theorem C7_allocation_amended_witness :
    (BandwidthAllocation.new 20 1 1 1).criticalBps +
        (BandwidthAllocation.new 20 1 1 1).highBps +
        (BandwidthAllocation.new 20 1 1 1).normalBps = 20 :=
  (C7_allocation_amended 20 1 1 1).2.1 (by decide) (by decide) (by decide) (by decide)

/-! ## Claim C8: send with retry -/

/-- If every send up to attempts + remaining fails, the loop ends in
MaxRetriesExceeded(max_retries). -/
theorem sendWithRetryGo_fail (send : ℕ → Bool) (maxRetries : ℕ) :
    ∀ remaining attempts,
      (∀ i, attempts ≤ i → i ≤ attempts + remaining → send i = false) →
      sendWithRetryGo send maxRetries attempts remaining =
        .error (.maxRetriesExceeded maxRetries) := by
  intro remaining
  induction remaining with
  | zero =>
      intro attempts hfail
      simp [sendWithRetryGo, hfail attempts le_rfl (by omega)]
  | succ r ih =>
      intro attempts hfail
      simp only [sendWithRetryGo, hfail attempts le_rfl (by omega)]
      simp only [Bool.false_eq_true, if_false]
      exact ih (attempts + 1) (fun i h1 h2 => hfail i (by omega) (by omega))

/-- A successful loop consumed at most attempts + remaining + 1 sends. -/
theorem sendWithRetryGo_ok (send : ℕ → Bool) (maxRetries : ℕ) :
    ∀ remaining attempts n,
      sendWithRetryGo send maxRetries attempts remaining = .ok n →
      n ≤ attempts + remaining + 1 := by
  intro remaining
  induction remaining with
  | zero =>
      intro attempts n h
      simp only [sendWithRetryGo] at h
      split at h
      · cases h; omega
      · cases h
  | succ r ih =>
      intro attempts n h
      simp only [sendWithRetryGo] at h
      split at h
      · cases h; omega
      · have := ih (attempts + 1) n h
        omega

/-- Claim C8 as stated is false: with max_attempts 1 and an underlying send
that fails exactly once and then succeeds, send_with_retry returns success
after consuming 2 send attempts -- so one failure does not produce
MaxRetriesExceeded, and a success may consume max_attempts + 1 > max_attempts
sends. -/
theorem C8_counterexample :
    sendWithRetry (fun i => decide (1 ≤ i)) 1 = .ok 2 := by
  decide

/-- Claim C8, amended: the loop makes up to max_retries + 1 send attempts
(the initial attempt plus max_retries retries).  If the first
max_retries + 1 sends all fail the result is the error
MaxRetriesExceeded(max_retries), and whenever send_with_retry returns
success the number of send attempts consumed is at most max_retries + 1. -/
theorem C8_retry_amended (send : ℕ → Bool) (maxRetries : ℕ) :
    ((∀ i, i ≤ maxRetries → send i = false) →
      sendWithRetry send maxRetries = .error (.maxRetriesExceeded maxRetries)) ∧
      (∀ n, sendWithRetry send maxRetries = .ok n → n ≤ maxRetries + 1) := by
  constructor
  · intro hfail
    exact sendWithRetryGo_fail send maxRetries maxRetries 0
      (fun i h1 h2 => hfail i (by omega))
  · intro n h
    have := sendWithRetryGo_ok send maxRetries maxRetries 0 n h
    omega

/-- Witness for C8_retry_amended: an always-failing send with two retries
errors out, and an immediately succeeding send with no retries consumes one
attempt, within the bound. -/
theorem C8_retry_amended_witness :
    sendWithRetry (fun _ => false) 2 = .error (.maxRetriesExceeded 2) ∧ 1 ≤ 0 + 1 :=
  ⟨(C8_retry_amended (fun _ => false) 2).1 (fun i _ => rfl),
    (C8_retry_amended (fun _ => true) 0).2 1 (by decide)⟩

/-! ## Claim C6: priority queue order, peek, capacity -/

/-- popMin returns none only on the empty list. -/
theorem popMin_none : ∀ {l : List ℕ}, popMin l = none → l = []
  | [], _ => rfl
  | a :: rest, h => by
      rcases hr : popMin rest with _ | ⟨m, rest'⟩
      · simp only [popMin, hr] at h
        cases h
      · simp only [popMin, hr] at h
        split at h <;> cases h

/-- popMin pops one element: the input is a permutation of the popped element
consed onto the rest. -/
theorem popMin_perm : ∀ {l : List ℕ} {m : ℕ} {rest : List ℕ},
    popMin l = some (m, rest) → l.Perm (m :: rest)
  | [], _, _, h => by cases h
  | a :: l, m, rest, h => by
      rcases hr : popMin l with _ | ⟨m', rest'⟩
      · simp only [popMin, hr] at h
        cases h
        rw [popMin_none hr]
      · simp only [popMin, hr] at h
        split at h <;> cases h
        · exact List.Perm.refl _
        · exact ((popMin_perm hr).cons a).trans (List.Perm.swap _ _ _)

/-- popMin pops a minimal element. -/
theorem popMin_le : ∀ {l : List ℕ} {m : ℕ} {rest : List ℕ},
    popMin l = some (m, rest) → ∀ x ∈ l, m ≤ x
  | [], _, _, h => by cases h
  | a :: l, m, rest, h => by
      rcases hr : popMin l with _ | ⟨m', rest'⟩
      · simp only [popMin, hr] at h
        cases h
        intro x hx
        rcases List.mem_cons.mp hx with rfl | hx
        · exact le_rfl
        · rw [popMin_none hr] at hx
          cases hx
      · simp only [popMin, hr] at h
        split at h
        next hle =>
          cases h
          intro x hx
          rcases List.mem_cons.mp hx with rfl | hx
          · exact le_rfl
          · exact le_trans hle (popMin_le hr x hx)
        next hle =>
          cases h
          intro x hx
          rcases List.mem_cons.mp hx with rfl | hx
          · exact le_of_not_le hle
          · exact popMin_le hr x hx

/-- A queue with no pending chunks holds no chunks. -/
theorem chunks_eq_nil_of_pending_zero (q : PQueue) (h : q.totalPending = 0) :
    q.chunks = [] := by
  obtain ⟨c, hi, n, cap⟩ := q
  simp only [PQueue.totalPending] at h
  have hc : c = [] := List.length_eq_zero.mp (by omega)
  have hh : hi = [] := List.length_eq_zero.mp (by omega)
  have hn : n = [] := List.length_eq_zero.mp (by omega)
  simp [PQueue.chunks, hc, hh, hn]

/-- What a successful dequeue guarantees: the queue loses exactly the popped
chunk, the popped chunk is minimal in scheduler order among everything that
was queued, the pending count drops by one and the capacity is unchanged. -/
theorem dequeue_spec (q : PQueue) (c : QChunk) (q' : PQueue)
    (h : q.dequeue = .ok (c, q')) :
    q.chunks.Perm (c :: q'.chunks) ∧ (∀ x ∈ q.chunks, c.keyLE x) ∧
      q'.totalPending + 1 = q.totalPending ∧ q'.maxCapacity = q.maxCapacity := by
  rcases hc : popMin q.criticalQ with _ | ⟨m, rest⟩
  · rcases hh : popMin q.highQ with _ | ⟨m, rest⟩
    · rcases hn : popMin q.normalQ with _ | ⟨m, rest⟩
      · simp [PQueue.dequeue, hc, hh, hn] at h
      · simp only [PQueue.dequeue, hc, hh, hn] at h
        cases h
        have hperm := popMin_perm hn
        refine ⟨?_, ?_, ?_, rfl⟩
        · simp only [PQueue.chunks]
          exact ((hperm.map (QChunk.mk .normal)).append_left _).trans List.perm_middle
        · intro x hx
          simp only [PQueue.chunks, popMin_none hc, popMin_none hh, List.map_nil,
            List.nil_append, List.mem_map] at hx
          obtain ⟨s, hs, rfl⟩ := hx
          exact Or.inr ⟨rfl, popMin_le hn s hs⟩
        · simp only [PQueue.totalPending]
          have := hperm.length_eq
          simp only [List.length_cons] at this
          omega
    · simp only [PQueue.dequeue, hc, hh] at h
      cases h
      have hperm := popMin_perm hh
      refine ⟨?_, ?_, ?_, rfl⟩
      · simp only [PQueue.chunks]
        refine (((hperm.map (QChunk.mk .high)).append_left _).append_right _).trans ?_
        rw [List.append_assoc, List.map_cons, List.cons_append]
        exact List.perm_middle.trans (by rw [List.append_assoc])
      · intro x hx
        simp only [PQueue.chunks, popMin_none hc, List.map_nil, List.nil_append,
          List.mem_append, List.mem_map] at hx
        rcases hx with ⟨s, hs, rfl⟩ | ⟨s, hs, rfl⟩
        · exact Or.inr ⟨rfl, popMin_le hh s hs⟩
        · exact Or.inl (by simp [priorityIdx])
      · simp only [PQueue.totalPending]
        have := hperm.length_eq
        simp only [List.length_cons] at this
        omega
  · simp only [PQueue.dequeue, hc] at h
    cases h
    have hperm := popMin_perm hc
    refine ⟨?_, ?_, ?_, rfl⟩
    · simp only [PQueue.chunks]
      exact (((hperm.map (QChunk.mk .critical)).append_right _).append_right _).trans
        (List.Perm.refl _)
    · intro x hx
      simp only [PQueue.chunks, List.mem_append, List.mem_map] at hx
      rcases hx with (⟨s, hs, rfl⟩ | ⟨s, hs, rfl⟩) | ⟨s, hs, rfl⟩
      · exact Or.inr ⟨rfl, popMin_le hc s hs⟩
      · exact Or.inl (by simp [priorityIdx])
      · exact Or.inl (by simp [priorityIdx])
    · simp only [PQueue.totalPending]
      have := hperm.length_eq
      simp only [List.length_cons] at this
      omega

/-- A failed dequeue means the queue was empty. -/
theorem dequeue_error (q : PQueue) (e : QueueError) (h : q.dequeue = .error e) :
    q.chunks = [] := by
  rcases hc : popMin q.criticalQ with _ | ⟨m, rest⟩
  · rcases hh : popMin q.highQ with _ | ⟨m, rest⟩
    · rcases hn : popMin q.normalQ with _ | ⟨m, rest⟩
      · simp [PQueue.chunks, popMin_none hc, popMin_none hh, popMin_none hn]
      · simp [PQueue.dequeue, hc, hh, hn] at h
    · simp [PQueue.dequeue, hc, hh] at h
  · simp [PQueue.dequeue, hc] at h

/-- Everything the drain loop emits was queued. -/
theorem dequeueAllGo_subset :
    ∀ (fuel : ℕ) (q : PQueue) (x : QChunk), x ∈ dequeueAllGo fuel q → x ∈ q.chunks := by
  intro fuel
  induction fuel with
  | zero => intro q x hx; cases hx
  | succ f ih =>
      intro q x hx
      simp only [dequeueAllGo] at hx
      rcases hd : q.dequeue with e | ⟨c, q'⟩ <;> rw [hd] at hx
      · cases hx
      · obtain ⟨hperm, _, _, _⟩ := dequeue_spec q c q' hd
        rcases List.mem_cons.mp hx with rfl | hx
        · exact hperm.mem_iff.mpr (List.mem_cons_self _ _)
        · exact hperm.mem_iff.mpr (List.mem_cons_of_mem _ (ih q' x hx))

/-- The drain loop pops in non-decreasing scheduler order. -/
theorem dequeueAllGo_sorted (fuel : ℕ) :
    ∀ q : PQueue, (dequeueAllGo fuel q).Pairwise QChunk.keyLE := by
  induction fuel with
  | zero => intro q; exact List.Pairwise.nil
  | succ f ih =>
      intro q
      simp only [dequeueAllGo]
      rcases hd : q.dequeue with e | ⟨c, q'⟩
      · exact List.Pairwise.nil
      · obtain ⟨hperm, hmin, _, _⟩ := dequeue_spec q c q' hd
        refine List.Pairwise.cons ?_ (ih q')
        intro x hx
        exact hmin x (hperm.mem_iff.mpr (List.mem_cons_of_mem _ (dequeueAllGo_subset f q' x hx)))

/-- With enough fuel the drain loop pops exactly the queued chunks. -/
theorem dequeueAllGo_perm :
    ∀ (fuel : ℕ) (q : PQueue), q.totalPending ≤ fuel →
      (dequeueAllGo fuel q).Perm q.chunks := by
  intro fuel
  induction fuel with
  | zero =>
      intro q hq
      rw [chunks_eq_nil_of_pending_zero q (Nat.le_zero.mp hq)]
      exact List.Perm.refl _
  | succ f ih =>
      intro q hq
      rcases hd : q.dequeue with e | ⟨c, q'⟩
      · simp only [dequeueAllGo, hd]
        rw [dequeue_error q e hd]
      · simp only [dequeueAllGo, hd]
        obtain ⟨hperm, _, hpend, _⟩ := dequeue_spec q c q' hd
        exact ((ih q' (by omega)).cons c).trans hperm.symm

/-- Non-strict scheduler order plus distinct keys gives strict order. -/
theorem keyLE_keyLT (a b : QChunk) (hle : a.keyLE b)
    (hne : (priorityIdx a.priority, a.seq) ≠ (priorityIdx b.priority, b.seq)) :
    a.keyLT b := by
  rcases hle with hlt | ⟨heq, hseq⟩
  · exact Or.inl hlt
  · refine Or.inr ⟨heq, lt_of_le_of_ne hseq fun hs => hne ?_⟩
    rw [heq, hs]

/-- With pairwise-distinct (priority, sequence) keys the drain order is
strictly increasing. -/
theorem dequeueAllGo_sorted_strict (fuel : ℕ) :
    ∀ q : PQueue, (q.chunks.map (fun c => (priorityIdx c.priority, c.seq))).Nodup →
      (dequeueAllGo fuel q).Pairwise QChunk.keyLT := by
  induction fuel with
  | zero => intro q _; exact List.Pairwise.nil
  | succ f ih =>
      intro q hnd
      simp only [dequeueAllGo]
      rcases hd : q.dequeue with e | ⟨c, q'⟩
      · exact List.Pairwise.nil
      · obtain ⟨hperm, hmin, _, _⟩ := dequeue_spec q c q' hd
        have hnd' := (hperm.map (fun c => (priorityIdx c.priority, c.seq))).nodup_iff.mp hnd
        rw [List.map_cons, List.nodup_cons] at hnd'
        refine List.Pairwise.cons ?_ (ih q' hnd'.2)
        intro x hx
        have hxq : x ∈ q'.chunks := dequeueAllGo_subset f q' x hx
        refine keyLE_keyLT c x
          (hmin x (hperm.mem_iff.mpr (List.mem_cons_of_mem _ hxq))) fun he => ?_
        exact hnd'.1 (he ▸ List.mem_map_of_mem _ hxq)

/-- What a successful enqueue guarantees: the chunk joins the queue, the
pending count grows by one, the capacity is unchanged. -/
theorem enqueue_spec (q : PQueue) (c : QChunk) (q' : PQueue)
    (h : q.enqueue c = .ok q') :
    q'.chunks.Perm (c :: q.chunks) ∧ q'.totalPending = q.totalPending + 1 ∧
      q'.maxCapacity = q.maxCapacity := by
  simp only [PQueue.enqueue] at h
  split at h
  · cases h
  · cases h
    obtain ⟨pr, seq⟩ := c
    cases pr
    · exact ⟨List.Perm.refl _, by simp [PQueue.totalPending]; omega, rfl⟩
    · refine ⟨?_, by simp [PQueue.totalPending]; omega, rfl⟩
      simp only [PQueue.chunks, List.map_cons]
      rw [List.append_assoc, List.cons_append]
      exact List.perm_middle.trans (by rw [List.append_assoc])
    · refine ⟨?_, by simp [PQueue.totalPending]; omega, rfl⟩
      simp only [PQueue.chunks, List.map_cons]
      exact List.perm_middle

/-- A successful enqueue happens strictly below capacity. -/
theorem enqueue_ok_lt (q : PQueue) (c : QChunk) (q' : PQueue)
    (h : q.enqueue c = .ok q') : q.totalPending < q.maxCapacity := by
  simp only [PQueue.enqueue] at h
  split at h
  · cases h
  · omega

/-- Enqueue rejects with QueueFull(capacity) exactly when the pending sum has
reached the capacity. -/
theorem enqueue_full (q : PQueue) (c : QChunk) (h : q.maxCapacity ≤ q.totalPending) :
    q.enqueue c = .error (.queueFull q.maxCapacity) := by
  simp [PQueue.enqueue, if_pos h]

/-- A successful bulk enqueue queues exactly the given chunks on top of the
existing ones and keeps the capacity. -/
theorem enqueueList_spec : ∀ (cs : List QChunk) (q q' : PQueue),
    enqueueList q cs = .ok q' →
      q'.chunks.Perm (cs ++ q.chunks) ∧ q'.maxCapacity = q.maxCapacity
  | [], q, q', h => by
      cases h
      exact ⟨by rw [List.nil_append], rfl⟩
  | c :: rest, q, q', h => by
      rcases he : q.enqueue c with e | q₁
      · simp [enqueueList, he] at h
      · simp only [enqueueList, he] at h
        obtain ⟨hp1, _, hcap1⟩ := enqueue_spec q c q₁ he
        obtain ⟨hp2, hcap2⟩ := enqueueList_spec rest q₁ q' h
        refine ⟨?_, hcap2.trans hcap1⟩
        exact hp2.trans ((hp1.append_left rest).trans List.perm_middle)

/-- Every operation keeps the capacity field. -/
theorem applyQOp_cap (q : PQueue) (op : QOp) :
    (applyQOp q op).maxCapacity = q.maxCapacity := by
  cases op with
  | enq c =>
      rcases he : q.enqueue c with e | q₁
      · simp [applyQOp, he]
      · simp only [applyQOp, he]
        exact (enqueue_spec q c q₁ he).2.2
  | deq =>
      rcases hd : q.dequeue with e | ⟨c, q₁⟩
      · simp [applyQOp, hd]
      · simp only [applyQOp, hd]
        exact (dequeue_spec q c q₁ hd).2.2.2

/-- Every operation preserves the capacity bound on the pending sum. -/
theorem applyQOp_pending (q : PQueue) (op : QOp)
    (hq : q.totalPending ≤ q.maxCapacity) :
    (applyQOp q op).totalPending ≤ (applyQOp q op).maxCapacity := by
  rw [applyQOp_cap]
  cases op with
  | enq c =>
      rcases he : q.enqueue c with e | q₁
      · simpa [applyQOp, he] using hq
      · simp only [applyQOp, he]
        have hlt := enqueue_ok_lt q c q₁ he
        have := (enqueue_spec q c q₁ he).2.1
        omega
  | deq =>
      rcases hd : q.dequeue with e | ⟨c, q₁⟩
      · simpa [applyQOp, hd] using hq
      · simp only [applyQOp, hd]
        have := (dequeue_spec q c q₁ hd).2.2.1
        omega

/-- The pending sum of a queue built from operations never exceeds its
capacity. -/
theorem applyQOps_pending : ∀ (ops : List QOp) (q : PQueue),
    q.totalPending ≤ q.maxCapacity →
      (applyQOps q ops).totalPending ≤ (applyQOps q ops).maxCapacity
  | [], q, hq => hq
  | op :: rest, q, hq =>
      applyQOps_pending rest (applyQOp q op) (applyQOp_pending q op hq)

/-- Operation histories keep the capacity field. -/
theorem applyQOps_cap : ∀ (ops : List QOp) (q : PQueue),
    (applyQOps q ops).maxCapacity = q.maxCapacity
  | [], _ => rfl
  | op :: rest, q => (applyQOps_cap rest _).trans (applyQOp_cap q op)

/-- Peek reports the priority of the chunk the next dequeue pops. -/
theorem peek_dequeue (q : PQueue) (c : QChunk) (q' : PQueue)
    (h : q.dequeue = .ok (c, q')) : q.peek = some c.priority := by
  rcases hc : popMin q.criticalQ with _ | ⟨m, rest⟩
  · rcases hh : popMin q.highQ with _ | ⟨m, rest⟩
    · rcases hn : popMin q.normalQ with _ | ⟨m, rest⟩
      · simp [PQueue.dequeue, hc, hh, hn] at h
      · simp only [PQueue.dequeue, hc, hh, hn] at h
        cases h
        have h1 : q.criticalQ = [] := popMin_none hc
        have h2 : q.highQ = [] := popMin_none hh
        have h3 : q.normalQ ≠ [] := by
          intro hnil
          rw [hnil] at hn
          cases hn
        simp [PQueue.peek, h1, h2, List.isEmpty_iff, h3, indexToPriority]
    · simp only [PQueue.dequeue, hc, hh] at h
      cases h
      have h1 : q.criticalQ = [] := popMin_none hc
      have h2 : q.highQ ≠ [] := by
        intro hnil
        rw [hnil] at hh
        cases hh
      simp [PQueue.peek, h1, List.isEmpty_iff, h2, indexToPriority]
  · simp only [PQueue.dequeue, hc] at h
    cases h
    have h1 : q.criticalQ ≠ [] := by
      intro hnil
      rw [hnil] at hc
      cases hc
    simp [PQueue.peek, List.isEmpty_iff, h1, indexToPriority]

/-- Claim C6, confirmed: enqueue any chunk list within capacity from the
empty queue, and the drain order is exactly the enqueued chunks sorted by
(priority level Critical before High before Normal, ascending sequence number
within a level) -- strictly so when the (priority, sequence) keys are
pairwise distinct, which is the only situation where a strict order between
the popped chunks is well defined.  Peek reports the priority of the chunk
the next dequeue would pop (its read-only signature cannot change the pending
count).  Under every operation history the pending sum stays within the
configured capacity, and enqueue rejects with QueueFull(capacity) exactly
once the pending sum has reached the capacity. -/
theorem C6_priority_queue (capacity : ℕ) (cs : List QChunk) (q : PQueue)
    (henq : enqueueList (PQueue.newQueue capacity) cs = .ok q) :
    ((q.dequeueAll).Pairwise QChunk.keyLE ∧
      q.dequeueAll.Perm cs ∧
      ((cs.map fun c => (priorityIdx c.priority, c.seq)).Nodup →
        (q.dequeueAll).Pairwise QChunk.keyLT)) ∧
    (∀ (q₀ : PQueue) (c₀ : QChunk) (q₁ : PQueue),
      q₀.dequeue = .ok (c₀, q₁) → q₀.peek = some c₀.priority) ∧
    (∀ ops : List QOp, (applyQOps (PQueue.newQueue capacity) ops).totalPending ≤ capacity) ∧
    (∀ (q₀ : PQueue) (c₀ : QChunk), q₀.maxCapacity ≤ q₀.totalPending →
      q₀.enqueue c₀ = .error (.queueFull q₀.maxCapacity)) := by
  obtain ⟨hperm, hcap⟩ := enqueueList_spec cs (PQueue.newQueue capacity) q henq
  have hchunks : q.chunks.Perm cs := by
    simpa [PQueue.newQueue, PQueue.chunks] using hperm
  have hdeq : q.dequeueAll.Perm q.chunks :=
    dequeueAllGo_perm q.totalPending q le_rfl
  refine ⟨⟨dequeueAllGo_sorted _ q, hdeq.trans hchunks, fun hnd => ?_⟩,
    peek_dequeue, fun ops => ?_, enqueue_full⟩
  · refine dequeueAllGo_sorted_strict _ q ?_
    exact ((hchunks.map fun c => (priorityIdx c.priority, c.seq)).nodup_iff).mpr hnd
  · have h0 : (PQueue.newQueue capacity).totalPending ≤ (PQueue.newQueue capacity).maxCapacity := by
      simp [PQueue.newQueue, PQueue.totalPending]
    have h1 := applyQOps_pending ops (PQueue.newQueue capacity) h0
    have h2 : (applyQOps (PQueue.newQueue capacity) ops).maxCapacity = capacity :=
      applyQOps_cap ops (PQueue.newQueue capacity)
    omega

/-- Witness for C6_priority_queue: three chunks enqueued in scrambled order
with distinct keys drain as Critical 5, High 1, Normal 2. -/
theorem C6_priority_queue_witness :
    (PQueue.dequeueAll ⟨[5], [1], [2], 10⟩).Pairwise QChunk.keyLE ∧
      (PQueue.dequeueAll ⟨[5], [1], [2], 10⟩).Perm
        [⟨.normal, 2⟩, ⟨.critical, 5⟩, ⟨.high, 1⟩] ∧
      (PQueue.dequeueAll ⟨[5], [1], [2], 10⟩).Pairwise QChunk.keyLT :=
  ⟨(C6_priority_queue 10 [⟨.normal, 2⟩, ⟨.critical, 5⟩, ⟨.high, 1⟩]
      ⟨[5], [1], [2], 10⟩ (by decide)).1.1,
    (C6_priority_queue 10 [⟨.normal, 2⟩, ⟨.critical, 5⟩, ⟨.high, 1⟩]
      ⟨[5], [1], [2], 10⟩ (by decide)).1.2.1,
    (C6_priority_queue 10 [⟨.normal, 2⟩, ⟨.critical, 5⟩, ⟨.high, 1⟩]
      ⟨[5], [1], [2], 10⟩ (by decide)).1.2.2 (by decide)⟩


/-! ## Claims C1, C5, C10: field and interpolation groundwork -/

/-- finv computes the field inverse on F257. -/
theorem finv_eq_inv (a : F257) : finv a = a⁻¹ := by
  by_cases ha : a = 0
  · subst ha
    rw [show finv 0 = 0 from by decide, inv_zero]
  · have h255 : finv a = a ^ 255 := by
      simp only [finv]
      ring
    have hferm : a ^ 256 = 1 := by
      have h := ZMod.pow_card_sub_one_eq_one (p := 257) ha
      norm_num at h
      exact h
    have hmul : a * a ^ 255 = 1 := by
      rw [← pow_succ']
      exact hferm
    rw [h255]
    exact (inv_eq_of_mul_eq_one_right hmul).symm

/-- lagEval is the evaluation of the Mathlib Lagrange interpolant. -/
theorem lagEval_eq (m : ℕ) (v r : Fin m → F257) (x : F257) :
    lagEval m v r x = (Lagrange.interpolate Finset.univ v r).eval x := by
  simp only [lagEval, Lagrange.interpolate_apply, Polynomial.eval_finset_sum,
    Polynomial.eval_mul, Polynomial.eval_C, Lagrange.basis, Polynomial.eval_prod,
    Lagrange.basisDivisor, Polynomial.eval_sub, Polynomial.eval_X, finv_eq_inv]
  refine Finset.sum_congr rfl fun i _ => ?_
  refine congrArg (r i * ·) (Finset.prod_congr rfl fun j _ => ?_)
  ring

/-- At a node, lagEval returns the stored value. -/
theorem lagEval_node (m : ℕ) (v r : Fin m → F257) (hv : Function.Injective v)
    (i : Fin m) : lagEval m v r (v i) = r i := by
  rw [lagEval_eq]
  exact Lagrange.eval_interpolate_at_node r hv.injOn (Finset.mem_univ i)

/-- lagEval reconstructs every value of a polynomial of degree below the
number of nodes. -/
theorem lagEval_poly (m : ℕ) (v : Fin m → F257) (hv : Function.Injective v)
    (q : Polynomial F257) (hdeg : q.degree < m) (x : F257) :
    lagEval m v (fun i => q.eval (v i)) x = q.eval x := by
  rw [lagEval_eq]
  rw [← Lagrange.eq_interpolate hv.injOn (by simpa using hdeg)]

/-- Distinct naturals below 257 stay distinct in F257. -/
theorem cast_inj_of_lt {a b : ℕ} (ha : a < 257) (hb : b < 257)
    (h : ((a : ℕ) : F257) = b) : a = b := by
  have h2 := congrArg ZMod.val h
  rwa [ZMod.val_natCast_of_lt ha, ZMod.val_natCast_of_lt hb] at h2


/-! ## List toolbox for the erasure model -/

/-- Length of a padded chunk. -/
theorem padTo_length (c : List ℕ) (n : ℕ) : (padTo c n).length = max n c.length := by
  simp only [padTo]
  split
  · simp only [List.length_append, List.length_replicate]
    omega
  · omega

/-- Padding never changes the defaulted byte at any position. -/
theorem padTo_getD (c : List ℕ) (n t : ℕ) : (padTo c n).getD t 0 = c.getD t 0 := by
  simp only [padTo]
  split
  · rcases lt_or_ge t c.length with ht | ht
    · rw [List.getD_append _ _ _ _ ht]
    · rw [List.getD_append_right _ _ _ _ ht, List.getD_eq_default _ _ ht]
      rcases lt_or_ge (t - c.length) (n - c.length) with h2 | h2
      · rw [List.getD_eq_getElem _ _ (by simpa using h2), List.getElem_replicate]
      · rw [List.getD_eq_default _ _ (by simpa using h2)]
  · rfl

/-- Membership bound for the maximal chunk length. -/
theorem maxLen_le : ∀ (l : List (List ℕ)) (c : List ℕ), c ∈ l → c.length ≤ maxLen l
  | x :: xs, c, h => by
      simp only [maxLen, List.map_cons, List.foldr_cons]
      rcases List.mem_cons.mp h with rfl | h
      · exact le_max_left _ _
      · exact le_trans (maxLen_le xs c h) (le_max_right _ _)

/-- A non-empty member forces a positive maximal length. -/
theorem maxLen_pos (l : List (List ℕ)) (c : List ℕ) (hc : c ∈ l) (hne : c ≠ []) :
    0 < maxLen l :=
  lt_of_lt_of_le (List.length_pos.mpr hne) (maxLen_le l c hc)

/-- withIdx keeps the length. -/
theorem withIdx_length {α : Type _} : ∀ (l : List α) (i : ℕ), (withIdx i l).length = l.length
  | [], _ => rfl
  | _ :: rest, i => by
      simp only [withIdx, List.length_cons]
      rw [withIdx_length rest]

/-- withIdx pairs every element with its shifted index. -/
theorem withIdx_getElem {α : Type _} :
    ∀ (l : List α) (i j : ℕ) (h : j < (withIdx i l).length) (h' : j < l.length),
      (withIdx i l)[j] = (i + j, l[j])
  | a :: rest, i, 0, _, _ => by simp [withIdx]
  | a :: rest, i, j + 1, h, h' => by
      simp only [withIdx, List.getElem_cons_succ]
      rw [withIdx_getElem rest (i + 1) j (by simpa [withIdx] using h) (by simpa using h')]
      congr 1
      omega

/-- presentFrom lists as many pairs as there are present entries. -/
theorem presentFrom_length {α : Type _} :
    ∀ (l : List (Option α)) (i : ℕ),
      (presentFrom i l).length = l.countP (fun o => o.isSome)
  | [], _ => rfl
  | none :: rest, i => by
      simp only [presentFrom, List.countP_cons]
      rw [presentFrom_length rest]
      simp
  | some a :: rest, i => by
      simp only [presentFrom, List.countP_cons, List.length_cons]
      rw [presentFrom_length rest]
      simp

/-- Every pair listed by presentFrom points at a present entry of the input. -/
theorem mem_presentFrom {α : Type _} :
    ∀ {l : List (Option α)} {i : ℕ} {p : ℕ × α}, p ∈ presentFrom i l →
      i ≤ p.1 ∧ l[p.1 - i]? = some (some p.2)
  | [], _, _, h => by cases h
  | none :: rest, i, p, h => by
      simp only [presentFrom] at h
      obtain ⟨h1, h2⟩ := mem_presentFrom h
      refine ⟨by omega, ?_⟩
      have : p.1 - i = (p.1 - (i + 1)) + 1 := by omega
      rw [this, List.getElem?_cons_succ]
      exact h2
  | some a :: rest, i, p, h => by
      rcases List.mem_cons.mp h with rfl | h
      · simp
      · obtain ⟨h1, h2⟩ := mem_presentFrom h
        refine ⟨by omega, ?_⟩
        have : p.1 - i = (p.1 - (i + 1)) + 1 := by omega
        rw [this, List.getElem?_cons_succ]
        exact h2

/-- presentFrom lists indices in strictly increasing order. -/
theorem presentFrom_pairwise {α : Type _} :
    ∀ (l : List (Option α)) (i : ℕ),
      (presentFrom i l).Pairwise (fun p q => p.1 < q.1)
  | [], _ => List.Pairwise.nil
  | none :: rest, i => presentFrom_pairwise rest (i + 1)
  | some a :: rest, i => by
      refine List.Pairwise.cons (fun q hq => ?_) (presentFrom_pairwise rest (i + 1))
      have := (mem_presentFrom hq).1
      simpa using this

/-- A list is the table of its defaulted lookups. -/
theorem list_eq_map_range {α : Type _} (l : List α) (d : α) :
    (List.range l.length).map (fun k => l.getD k d) = l := by
  refine List.ext_getElem (by simp) fun k h1 h2 => ?_
  simp only [List.getElem_map, List.getElem_range]
  exact List.getD_eq_getElem l d h2

/-- The padded data block has exactly the data-shard count of shards. -/
theorem paddedData_length (d : ℕ) (chunks : List (List ℕ)) (sz : ℕ)
    (h : chunks.length ≤ d) : (paddedData d chunks sz).length = d := by
  simp only [paddedData, List.length_append, List.length_map, List.length_replicate]
  omega

/-- Every padded data shard has the shard size as length. -/
theorem paddedData_shard_length (d : ℕ) (chunks : List (List ℕ)) (sz : ℕ)
    (hall : ∀ c ∈ chunks, c.length ≤ sz) :
    ∀ s ∈ paddedData d chunks sz, s.length = sz := by
  intro s hs
  simp only [paddedData, List.mem_append, List.mem_map] at hs
  rcases hs with ⟨c, hc, rfl⟩ | hs
  · rw [padTo_length]
    exact max_eq_left (hall c hc)
  · rw [List.eq_of_mem_replicate hs, List.length_replicate]

/-- prepare_shards is the padded data block followed by the empty parity
shards. -/
theorem prepareShards_eq (d p : ℕ) (chunks : List (List ℕ)) (sz : ℕ) :
    ErasureCoder.prepareShards ⟨d, p⟩ chunks sz =
      paddedData d chunks sz ++ List.replicate p (List.replicate sz 0) := rfl

/-- On a well-formed shard vector rsEncode succeeds and returns the
codeword. -/
theorem rsEncode_eq (d p : ℕ) (shards : List (List ℕ))
    (hlen : shards.length = d + p) (hsz : 0 < (shards.headD []).length)
    (huni : ∀ s ∈ shards, s.length = (shards.headD []).length) :
    rsEncode d p shards =
      .ok (rsCodeword d p (shards.take d) (shards.headD []).length) := by
  have hany : shards.any (fun s => s.length ≠ (shards.headD []).length) = false := by
    simp only [List.any_eq_false, decide_eq_true_eq]
    intro s hs
    simp [huni s hs]
  simp only [rsEncode, hlen]
  rw [if_neg (by omega)]
  rw [if_neg (by omega)]
  rw [hany]
  simp [rsCodeword]

/-- The length of a successful rsEncode result. -/
theorem rsEncode_ok_length (d p : ℕ) (shards out : List (List ℕ))
    (h : rsEncode d p shards = .ok out) : out.length = d + p := by
  simp only [rsEncode] at h
  split at h
  · cases h
  · split at h
    · cases h
    · split at h
      · cases h
      · cases h
        rename_i hcount _ _
        simp only [List.length_append, List.length_take, List.length_map,
          List.length_range]
        omega

/-- ErasureCoder::encode on a non-empty chunk list that fits the coder: it
succeeds and returns the codeword over the padded data. -/
theorem encode_eq (d p : ℕ) (chunks : List (List ℕ)) (hne : chunks ≠ [])
    (hK : chunks.length ≤ d) (hbound : d + p ≤ 256) (hsz : 0 < maxLen chunks) :
    ErasureCoder.encode ⟨d, p⟩ chunks =
      .ok (rsCodeword d p (paddedData d chunks (maxLen chunks)) (maxLen chunks)) := by
  obtain ⟨c₀, rest, rfl⟩ : ∃ c₀ rest, chunks = c₀ :: rest := by
    cases chunks with
    | nil => exact absurd rfl hne
    | cons a l => exact ⟨a, l, rfl⟩
  set L := maxLen (c₀ :: rest) with hLdef
  have hhead : (ErasureCoder.prepareShards ⟨d, p⟩ (c₀ :: rest) L).headD [] = padTo c₀ L := by
    simp [ErasureCoder.prepareShards]
  have hheadlen : (padTo c₀ L).length = L := by
    rw [padTo_length]
    exact max_eq_left (maxLen_le _ c₀ (List.mem_cons_self _ _))
  have hplen : (ErasureCoder.prepareShards ⟨d, p⟩ (c₀ :: rest) L).length = d + p := by
    simp only [ErasureCoder.prepareShards, List.length_append, List.length_map,
      List.length_replicate, List.length_cons]
    have : rest.length + 1 ≤ d := hK
    omega
  have huni : ∀ s ∈ ErasureCoder.prepareShards ⟨d, p⟩ (c₀ :: rest) L,
      s.length = ((ErasureCoder.prepareShards ⟨d, p⟩ (c₀ :: rest) L).headD []).length := by
    rw [hhead, hheadlen]
    intro s hs
    rw [prepareShards_eq] at hs
    rcases List.mem_append.mp hs with hs | hs
    · exact paddedData_shard_length d _ L (fun c hc => maxLen_le _ c hc) s hs
    · rw [List.eq_of_mem_replicate hs, List.length_replicate]
  have htake : (ErasureCoder.prepareShards ⟨d, p⟩ (c₀ :: rest) L).take d =
      paddedData d (c₀ :: rest) L := by
    rw [prepareShards_eq]
    rw [List.take_left' (paddedData_length d _ L hK)]
  simp only [ErasureCoder.encode, List.isEmpty_cons, Bool.false_eq_true, if_false]
  rw [if_neg (by omega)]
  rw [rsEncode_eq d p _ hplen (by rw [hhead, hheadlen]; exact hsz) huni]
  rw [htake, hhead, hheadlen]


/-! ## The codeword as polynomial evaluations -/

/-- lagEval only depends on the point family, not on how it is indexed. -/
theorem lagEval_ext (m m' : ℕ) (hm : m = m') (v r : Fin m → F257)
    (v' r' : Fin m' → F257) (hv : ∀ j : Fin m, v j = v' (Fin.cast hm j))
    (hr : ∀ j : Fin m, r j = r' (Fin.cast hm j)) (x : F257) :
    lagEval m v r x = lagEval m' v' r' x := by
  subst hm
  have hv' : v = v' := funext fun j => hv j
  have hr' : r = r' := funext fun j => hr j
  rw [hv', hr']

/-- The standard nodes 0, 1, ... are injective below the field size. -/
theorem nodes_injective (m : ℕ) (hm : m ≤ 257) :
    Function.Injective (fun j : Fin m => ((j : ℕ) : F257)) := by
  intro a b hab
  have := cast_inj_of_lt (lt_of_lt_of_le a.isLt hm) (lt_of_lt_of_le b.isLt hm) hab
  exact Fin.ext this

/-- Every byte position of the codeword is the value of one polynomial of
degree below the data count, evaluated at the shard index; and every entry is
a field value below 257. -/
theorem rsCodeword_col (p sz t : ℕ) (data : List (List ℕ))
    (hn : data.length + p ≤ 256) (ht : t < sz)
    (hlen : ∀ s ∈ data, s.length = sz)
    (hbyte : ∀ s ∈ data, ∀ b ∈ s, b < 257) :
    ∀ i, i < data.length + p →
      ((rsCodeword data.length p data sz).getD i []).getD t 0 < 257 ∧
      ((((rsCodeword data.length p data sz).getD i []).getD t 0 : ℕ) : F257) =
        (Lagrange.interpolate Finset.univ
          (fun j : Fin data.length => ((j : ℕ) : F257))
          (fun j => (((data.getD (j : ℕ) []).getD t 0 : ℕ) : F257))).eval ((i : ℕ) : F257) := by
  intro i hi
  have hinj : Function.Injective (fun j : Fin data.length => ((j : ℕ) : F257)) :=
    nodes_injective data.length (by omega)
  by_cases hid : i < data.length
  · -- data shard
    have hgetD : (rsCodeword data.length p data sz).getD i [] = data.getD i [] := by
      simp only [rsCodeword]
      exact List.getD_append _ _ _ _ hid
    have hmem : data.getD i [] ∈ data := by
      rw [List.getD_eq_getElem _ _ hid]
      exact List.getElem_mem _
    have htlen : t < (data.getD i []).length := by
      rw [hlen _ hmem]
      exact ht
    constructor
    · rw [hgetD]
      refine hbyte _ hmem _ ?_
      rw [List.getD_eq_getElem _ _ htlen]
      exact List.getElem_mem _
    · rw [hgetD]
      have hnode : ((i : ℕ) : F257) = (fun j : Fin data.length => ((j : ℕ) : F257)) ⟨i, hid⟩ :=
        rfl
      rw [hnode, Lagrange.eval_interpolate_at_node _ hinj.injOn (Finset.mem_univ _)]
  · -- parity shard
    push_neg at hid
    have hj : i - data.length < p := by omega
    have hgetD : (rsCodeword data.length p data sz).getD i [] =
        (List.range sz).map (fun t' => rsColEval (withIdx 0 data) t' i) := by
      simp only [rsCodeword]
      rw [List.getD_append_right _ _ _ _ hid]
      rw [List.getD_eq_getElem _ _ (by simpa using hj)]
      rw [List.getElem_map, List.getElem_range]
      have : data.length + (i - data.length) = i := by omega
      rw [this]
    rw [hgetD]
    have hgt : ((List.range sz).map (fun t' => rsColEval (withIdx 0 data) t' i)).getD t 0 =
        rsColEval (withIdx 0 data) t i := by
      rw [List.getD_eq_getElem _ _ (by simpa using ht), List.getElem_map, List.getElem_range]
    rw [hgt]
    constructor
    · exact ZMod.val_lt _
    · rw [rsColEval, ZMod.natCast_rightInverse _]
      rw [lagEval_ext (withIdx 0 data).length data.length (withIdx_length data 0) _ _
        (fun j : Fin data.length => ((j : ℕ) : F257))
        (fun j => (((data.getD (j : ℕ) []).getD t 0 : ℕ) : F257))
        (fun j => ?_) (fun j => ?_) (((i : ℕ) : F257))]
      · exact lagEval_eq _ _ _ _
      · have hb1 : (j : ℕ) < (withIdx 0 data).length := j.isLt
        have hb2 : (j : ℕ) < data.length := by
          rw [← withIdx_length data 0]
          exact j.isLt
        rw [List.get_eq_getElem, withIdx_getElem data 0 (j : ℕ) hb1 hb2]
        simp
      · have hb1 : (j : ℕ) < (withIdx 0 data).length := j.isLt
        have hb2 : (j : ℕ) < data.length := by
          rw [← withIdx_length data 0]
          exact j.isLt
        rw [List.get_eq_getElem, withIdx_getElem data 0 (j : ℕ) hb1 hb2]
        simp [List.getD_eq_getElem _ _ hb2]
        rw [List.getElem?_eq_getElem hb2, Option.getD_some]


/-! ## Reconstruction groundwork -/

/-- Strictly increasing point indices below the field size give injective
nodes. -/
theorem pts_nodes_injective (pts : List (ℕ × List ℕ))
    (hpw : pts.Pairwise (fun a b => a.1 < b.1))
    (hlt : ∀ a ∈ pts, a.1 < 257) :
    Function.Injective (fun j : Fin pts.length => (((pts.get j).1 : ℕ) : F257)) := by
  intro a b hab
  have hfst : (pts.get a).1 = (pts.get b).1 :=
    cast_inj_of_lt (hlt _ (List.get_mem pts _ a.isLt))
      (hlt _ (List.get_mem pts _ b.isLt)) hab
  by_contra hne
  have hpg := List.pairwise_iff_get.mp hpw
  rcases lt_trichotomy a b with h | h | h
  · exact absurd hfst (Nat.ne_of_lt (hpg a b h))
  · exact hne (by rw [h])
  · exact absurd hfst.symm (Nat.ne_of_lt (hpg b a h))

/-- rsColEval recovers the value of any polynomial of degree below the point
count whose graph contains the points. -/
theorem rsColEval_eq_poly (pts : List (ℕ × List ℕ)) (q : Polynomial F257) (t : ℕ)
    (hq : q.degree < pts.length)
    (hpw : pts.Pairwise (fun a b => a.1 < b.1))
    (hlt : ∀ a ∈ pts, a.1 < 257)
    (hval : ∀ j : Fin pts.length,
      (((pts.get j).2.getD t 0 : ℕ) : F257) = q.eval (((pts.get j).1 : ℕ) : F257))
    (x : ℕ) :
    rsColEval pts t x = (q.eval ((x : ℕ) : F257)).val := by
  have hinj := pts_nodes_injective pts hpw hlt
  simp only [rsColEval]
  congr 1
  have hfun : (fun j : Fin pts.length => (((pts.get j).2.getD t 0 : ℕ) : F257)) =
      fun j => q.eval ((fun j : Fin pts.length => (((pts.get j).1 : ℕ) : F257)) j) :=
    funext fun j => hval j
  rw [hfun]
  exact lagEval_poly pts.length _ hinj q hq _

/-- Filling a partial shard vector produces the table of a function that
agrees with the present entries and with the interpolation on the missing
ones. -/
theorem fillFrom_eq (pts : List (ℕ × List ℕ)) (sz : ℕ) (g : ℕ → List ℕ) :
    ∀ (l : List (Option (List ℕ))) (i₀ : ℕ),
      (∀ k (s : List ℕ), l[k]? = some (some s) → s = g (i₀ + k)) →
      (∀ k, l[k]? = some none →
        (List.range sz).map (fun t => rsColEval pts t (i₀ + k)) = g (i₀ + k)) →
      fillFrom pts sz i₀ l = (List.range l.length).map (fun k => g (i₀ + k))
  | [], _, _, _ => rfl
  | some s :: rest, i₀, hp, hm => by
      have h0 : s = g (i₀ + 0) := hp 0 s (by simp)
      have hrec := fillFrom_eq pts sz g rest (i₀ + 1)
        (fun k s hk => by
          have := hp (k + 1) s (by simpa using hk)
          rwa [show i₀ + (k + 1) = i₀ + 1 + k by omega] at this)
        (fun k hk => by
          have := hm (k + 1) (by simpa using hk)
          rwa [show i₀ + (k + 1) = i₀ + 1 + k by omega] at this)
      simp only [fillFrom, hrec, List.length_cons, List.range_succ_eq_map,
        List.map_cons, List.map_map]
      refine congrArg₂ List.cons h0 (List.map_congr_left fun k _ => ?_)
      simp only [Function.comp_apply]
      congr 1
      omega
  | none :: rest, i₀, hp, hm => by
      have h0 := hm 0 (by simp)
      have hrec := fillFrom_eq pts sz g rest (i₀ + 1)
        (fun k s hk => by
          have := hp (k + 1) s (by simpa using hk)
          rwa [show i₀ + (k + 1) = i₀ + 1 + k by omega] at this)
        (fun k hk => by
          have := hm (k + 1) (by simpa using hk)
          rwa [show i₀ + (k + 1) = i₀ + 1 + k by omega] at this)
      simp only [fillFrom, hrec, List.length_cons, List.range_succ_eq_map,
        List.map_cons, List.map_map]
      refine congrArg₂ List.cons ?_ (List.map_congr_left fun k _ => ?_)
      · simpa using h0
      · simp only [Function.comp_apply]
        congr 1
        omega

/-- Shard lengths across the codeword. -/
theorem rsCodeword_shard_length (p sz : ℕ) (data : List (List ℕ))
    (hlen : ∀ s ∈ data, s.length = sz) :
    ∀ i, i < data.length + p →
      ((rsCodeword data.length p data sz).getD i []).length = sz := by
  intro i hi
  by_cases hid : i < data.length
  · simp only [rsCodeword]
    rw [List.getD_append _ _ _ _ hid]
    refine hlen _ ?_
    rw [List.getD_eq_getElem _ _ hid]
    exact List.getElem_mem _
  · push_neg at hid
    simp only [rsCodeword]
    rw [List.getD_append_right _ _ _ _ hid]
    rw [List.getD_eq_getElem _ _ (by simpa using (by omega : i - data.length < p))]
    simp

/-- The codeword length. -/
theorem rsCodeword_length (d p sz : ℕ) (data : List (List ℕ)) :
    (rsCodeword d p data sz).length = data.length + p := by
  simp [rsCodeword]



/-- On a mask that agrees with a codeword and keeps at least data-count many
shards, rsReconstruct rebuilds the full codeword. -/
theorem rsReconstruct_eq (p sz : ℕ) (data : List (List ℕ))
    (mask : List (Option (List ℕ)))
    (hd1 : 1 ≤ data.length) (hn : data.length + p ≤ 256) (hsz : 0 < sz)
    (hlen : ∀ s ∈ data, s.length = sz)
    (hbyte : ∀ s ∈ data, ∀ b ∈ s, b < 257)
    (hmlen : mask.length = data.length + p)
    (hmask : ∀ (i : ℕ) (s : List ℕ), mask[i]? = some (some s) →
      (rsCodeword data.length p data sz).getD i [] = s)
    (hcount : data.length ≤ mask.countP (fun o => o.isSome)) :
    rsReconstruct data.length p mask =
      .ok ((List.range mask.length).map
        (fun k => (rsCodeword data.length p data sz).getD k [])) := by
  have hpreslen : (presentFrom 0 mask).length = mask.countP (fun o => o.isSome) :=
    presentFrom_length mask 0
  have hmem : ∀ q ∈ presentFrom 0 mask, mask[q.1]? = some (some q.2) := by
    intro q hq
    have h := (mem_presentFrom hq).2
    simpa using h
  have hmemcw : ∀ q ∈ presentFrom 0 mask,
      (rsCodeword data.length p data sz).getD q.1 [] = q.2 :=
    fun q hq => hmask _ _ (hmem q hq)
  have hidxlt : ∀ q ∈ presentFrom 0 mask, q.1 < mask.length := by
    intro q hq
    by_contra hge
    push_neg at hge
    have hx := hmem q hq
    rw [List.getElem?_eq_none hge] at hx
    cases hx
  have hq2len : ∀ q ∈ presentFrom 0 mask, q.2.length = sz := by
    intro q hq
    rw [← hmemcw q hq]
    exact rsCodeword_shard_length p sz data hlen q.1 (by rw [← hmlen]; exact hidxlt q hq)
  have hptslen : ((presentFrom 0 mask).take data.length).length = data.length := by
    rw [List.length_take, hpreslen]
    omega
  have hptssub : ∀ q ∈ (presentFrom 0 mask).take data.length, q ∈ presentFrom 0 mask :=
    fun q hq => List.take_subset _ _ hq
  have hptspw : ((presentFrom 0 mask).take data.length).Pairwise (fun a b => a.1 < b.1) :=
    List.Pairwise.sublist (List.take_sublist _ _) (presentFrom_pairwise mask 0)
  have hptslt : ∀ a ∈ (presentFrom 0 mask).take data.length, a.1 < 257 := by
    intro a ha
    have := hidxlt a (hptssub a ha)
    omega
  -- the filled vector is the codeword table
  have hfill : fillFrom ((presentFrom 0 mask).take data.length) sz 0 mask =
      (List.range mask.length).map
        (fun k => (rsCodeword data.length p data sz).getD k []) := by
    have hmain := fillFrom_eq ((presentFrom 0 mask).take data.length) sz
      (fun k => (rsCodeword data.length p data sz).getD k []) mask 0
      (fun k s hk => by simpa using (hmask k s hk).symm)
      (fun k hk => by
        have hklt : k < mask.length := by
          by_contra hge
          push_neg at hge
          rw [List.getElem?_eq_none hge] at hk
          cases hk
        have hkdp : 0 + k < data.length + p := by
          rw [← hmlen]
          omega
        show (List.range sz).map
            (fun t => rsColEval ((presentFrom 0 mask).take data.length) t (0 + k)) =
          (rsCodeword data.length p data sz).getD (0 + k) []
        refine List.ext_getElem ?_ fun t h1 h2 => ?_
        · rw [List.length_map, List.length_range,
            rsCodeword_shard_length p sz data hlen _ hkdp]
        · rw [List.getElem_map, List.getElem_range]
          have ht : t < sz := by
            rw [List.length_map, List.length_range] at h1
            exact h1
          have hcol := rsCodeword_col p sz t data hn ht hlen hbyte
          rw [rsColEval_eq_poly ((presentFrom 0 mask).take data.length)
            (Lagrange.interpolate Finset.univ
              (fun j : Fin data.length => ((j : ℕ) : F257))
              (fun j => (((data.getD (j : ℕ) []).getD t 0 : ℕ) : F257)))
            t ?_ hptspw hptslt ?_ (0 + k)]
          · obtain ⟨hb, he⟩ := hcol (0 + k) hkdp
            rw [← he, ZMod.val_natCast_of_lt hb]
            have hlt2 : t < ((rsCodeword data.length p data sz).getD (0 + k) []).length := by
              rw [rsCodeword_shard_length p sz data hlen _ hkdp]
              exact ht
            rw [List.getD_eq_getElem _ _ hlt2]
          · rw [hptslen]
            refine lt_of_lt_of_le (Lagrange.degree_interpolate_lt _
              (nodes_injective data.length (by omega)).injOn) ?_
            simp
          · intro j
            have hjmem := List.get_mem ((presentFrom 0 mask).take data.length) _ j.isLt
            have hcw := hmemcw _ (hptssub _ hjmem)
            have hjlt : ((((presentFrom 0 mask).take data.length).get j).1) <
                data.length + p := by
              rw [← hmlen]
              exact hidxlt _ (hptssub _ hjmem)
            obtain ⟨hb, he⟩ := hcol _ hjlt
            rw [← hcw, he])
    simpa using hmain
  -- assemble rsReconstruct
  have hpres_ne : presentFrom 0 mask ≠ [] := by
    intro hnil
    rw [hnil] at hpreslen
    simp at hpreslen
    omega
  have hhead_mem : (presentFrom 0 mask).headD (0, []) ∈ presentFrom 0 mask := by
    cases hp : presentFrom 0 mask with
    | nil => exact absurd hp hpres_ne
    | cons a l => simp [hp]
  have hheadlen : ((presentFrom 0 mask).headD (0, [])).2.length = sz :=
    hq2len _ hhead_mem
  have hany : (presentFrom 0 mask).any
      (fun q => q.2.length ≠ ((presentFrom 0 mask).headD (0, [])).2.length) = false := by
    simp only [List.any_eq_false, decide_eq_true_eq]
    intro q hq
    rw [hheadlen, hq2len q hq]
    simp
  simp only [rsReconstruct]
  rw [if_neg (by omega : ¬mask.length ≠ data.length + p)]
  rw [if_neg (by rw [hheadlen]; omega)]
  rw [hany]
  simp only [Bool.false_eq_true, if_false]
  rw [hheadlen, hfill]

/-! ## Reconstruction of the codeword -/

/-- ErasureCoder::decode on a mask of at least data-count shards of a
codeword returns exactly the data shards. -/
theorem decode_eq (p sz : ℕ) (data : List (List ℕ)) (mask : List (Option (List ℕ)))
    (hd1 : 1 ≤ data.length) (hn : data.length + p ≤ 256) (hsz : 0 < sz)
    (hlen : ∀ s ∈ data, s.length = sz)
    (hbyte : ∀ s ∈ data, ∀ b ∈ s, b < 257)
    (hmlen : mask.length = data.length + p)
    (hmask : ∀ (i : ℕ) (s : List ℕ), mask[i]? = some (some s) →
      (rsCodeword data.length p data sz).getD i [] = s)
    (hcount : data.length ≤ mask.countP (fun o => o.isSome)) :
    ErasureCoder.decode ⟨data.length, p⟩ mask = .ok data := by
  have hrec := rsReconstruct_eq p sz data mask hd1 hn hsz hlen hbyte hmlen hmask hcount
  have hne : mask.isEmpty = false := by
    rw [List.isEmpty_eq_false]
    intro hnil
    rw [hnil] at hmlen
    simp at hmlen
    omega
  have hfinal : (((List.range mask.length).map
      (fun k => (rsCodeword data.length p data sz).getD k [])).take data.length) = data := by
    refine List.ext_getElem ?_ fun k h1 h2 => ?_
    · rw [List.length_take, List.length_map, List.length_range, hmlen]
      omega
    · rw [List.getElem_take, List.getElem_map, List.getElem_range]
      have hgd : (rsCodeword data.length p data sz).getD k [] = data.getD k [] := by
        simp only [rsCodeword]
        exact List.getD_append _ _ _ _ h2
      rw [hgd, List.getD_eq_getElem _ _ h2]
  simp only [ErasureCoder.decode, hne, Bool.false_eq_true, if_false]
  rw [if_neg (by omega : ¬256 < data.length + p)]
  rw [if_neg (by omega : ¬mask.countP (fun s => s.isSome) < data.length)]
  rw [hrec]
  show Except.ok (((List.range mask.length).map
      (fun k => (rsCodeword data.length p data sz).getD k [])).take data.length) =
    Except.ok data
  rw [hfinal]


/-! ## Claim C1: encode/decode round trip -/

/-- Bytes of a padded chunk come from the chunk or are padding zeros. -/
theorem padTo_mem (c : List ℕ) (n : ℕ) (b : ℕ) (hb : b ∈ padTo c n) :
    b ∈ c ∨ b = 0 := by
  simp only [padTo] at hb
  split at hb
  · rcases List.mem_append.mp hb with h | h
    · exact Or.inl h
    · exact Or.inr (List.eq_of_mem_replicate h)
  · exact Or.inl hb

/-- The concatenation of the padded chunks extends the concatenation of the
chunks, provided only the last chunk may be short of the shard size. -/
theorem join_map_padTo (L : ℕ) :
    ∀ chunks : List (List ℕ), (∀ c ∈ chunks.dropLast, c.length = L) →
      ∃ zs, (chunks.map (padTo · L)).flatten = chunks.flatten ++ zs
  | [], _ => ⟨[], rfl⟩
  | [c], _ => by
      obtain ⟨z, hz⟩ : ∃ z, padTo c L = c ++ z := by
        simp only [padTo]
        split
        · exact ⟨_, rfl⟩
        · exact ⟨[], (List.append_nil c).symm⟩
      exact ⟨z, by simp [hz]⟩
  | c :: c' :: rest, huni => by
      have hc : c.length = L := huni c (by simp)
      have hpad : padTo c L = c := by
        simp [padTo, hc]
      obtain ⟨zs, hzs⟩ := join_map_padTo L (c' :: rest)
        (fun x hx => huni x (by
          rw [List.dropLast_cons_of_ne_nil (by simp)]
          exact List.mem_cons_of_mem _ hx))
      refine ⟨zs, ?_⟩
      simp only [List.map_cons, List.flatten_cons, hpad] at hzs ⊢
      rw [hzs]
      simp [List.append_assoc]

/-- The concatenation of the padded data block extends the concatenation of
the chunks. -/
theorem join_paddedData (d L : ℕ) (chunks : List (List ℕ))
    (huni : ∀ c ∈ chunks.dropLast, c.length = L) :
    ∃ zs, (paddedData d chunks L).flatten = chunks.flatten ++ zs := by
  obtain ⟨zs, hzs⟩ := join_map_padTo L chunks huni
  refine ⟨zs ++ (List.replicate (d - chunks.length) (List.replicate L 0)).flatten, ?_⟩
  simp only [paddedData, List.flatten_append, hzs, List.append_assoc]

/-- Claim C1, amended: for every coder (D, P) with D, P ≥ 1 and D + P within
the GF(2^8) shard bound of 256, and every non-empty list of at most D data
chunks of bytes in which every chunk except possibly the last has the common
maximal length (which is positive), with concatenation B: encode succeeds
with D + P shards, and decode applied to any mask of those shards that keeps
at least D of them (missing ones replaced by None, kept ones at their
original index) succeeds and returns D data shards whose concatenation has
B as a prefix (its first |B| bytes are exactly B). -/
theorem C1_round_trip_amended (D P : ℕ) (chunks : List (List ℕ))
    (hD : 1 ≤ D) (hP : 1 ≤ P) (hbound : D + P ≤ 256) (hne : chunks ≠ [])
    (hK : chunks.length ≤ D)
    (huni : ∀ c ∈ chunks.dropLast, c.length = maxLen chunks)
    (hpos : 0 < maxLen chunks)
    (hbyte : ∀ c ∈ chunks, ∀ b ∈ c, b < 256) :
    ∃ shards, ErasureCoder.encode ⟨D, P⟩ chunks = .ok shards ∧ shards.length = D + P ∧
      ∀ mask : List (Option (List ℕ)), mask.length = D + P →
        (∀ (i : ℕ) (s : List ℕ), mask[i]? = some (some s) → shards[i]? = some s) →
        D ≤ mask.countP (fun o => o.isSome) →
        ∃ dataOut, ErasureCoder.decode ⟨D, P⟩ mask = .ok dataOut ∧
          dataOut.length = D ∧
          dataOut.flatten.take chunks.flatten.length = chunks.flatten := by
  have hdlen : (paddedData D chunks (maxLen chunks)).length = D :=
    paddedData_length D chunks (maxLen chunks) hK
  have hdataL : ∀ s ∈ paddedData D chunks (maxLen chunks), s.length = maxLen chunks :=
    paddedData_shard_length D chunks (maxLen chunks) (fun c hc => maxLen_le chunks c hc)
  have hdatabyte : ∀ s ∈ paddedData D chunks (maxLen chunks), ∀ b ∈ s, b < 257 := by
    intro s hs b hb
    simp only [paddedData, List.mem_append, List.mem_map] at hs
    rcases hs with ⟨c, hc, rfl⟩ | hs
    · rcases padTo_mem c _ b hb with h | h
      · exact lt_trans (hbyte c hc b h) (by omega)
      · omega
    · rw [List.eq_of_mem_replicate hs] at hb
      rw [List.eq_of_mem_replicate hb]
      omega
  have hcwD : rsCodeword D P (paddedData D chunks (maxLen chunks)) (maxLen chunks) =
      rsCodeword (paddedData D chunks (maxLen chunks)).length P
        (paddedData D chunks (maxLen chunks)) (maxLen chunks) := by
    rw [hdlen]
  refine ⟨rsCodeword D P (paddedData D chunks (maxLen chunks)) (maxLen chunks),
    encode_eq D P chunks hne hK hbound hpos, ?_, ?_⟩
  · rw [rsCodeword_length, hdlen]
  · intro mask hmlen hmask hcount
    refine ⟨paddedData D chunks (maxLen chunks), ?_, hdlen, ?_⟩
    · have := decode_eq P (maxLen chunks) (paddedData D chunks (maxLen chunks)) mask
        (by omega) (by omega) hpos hdataL hdatabyte (by omega)
        (fun i s hi => ?_) (by omega)
      · rw [hdlen] at this
        exact this
      · have hs := hmask i s hi
        rw [hcwD] at hs
        have hlt : i < (rsCodeword (paddedData D chunks (maxLen chunks)).length P
            (paddedData D chunks (maxLen chunks)) (maxLen chunks)).length := by
          by_contra hge
          push_neg at hge
          rw [List.getElem?_eq_none hge] at hs
          cases hs
        rw [List.getD_eq_getElem _ _ hlt]
        rw [List.getElem?_eq_getElem hlt] at hs
        exact Option.some.inj hs
    · obtain ⟨zs, hzs⟩ := join_paddedData D (maxLen chunks) chunks huni
      rw [hzs, List.take_left']
      rfl

/-- Claim C1 as stated is false on four counts, each witnessed concretely.
(1) With (D, P) = (2, 1) and the ragged chunk list [[1], [2,3]] (B = [1,2,3])
the encode succeeds and every shard survives, yet the decoded data shards
concatenate to [1,0,2,3]: the short first chunk was zero-padded in the
middle, so the first |B| bytes are [1,0,2], not B.  (2) With three chunks and
(D, P) = (2, 1) encode fails instead of producing D + P shards.  (3) With
(D, P) = (256, 1), beyond the 256-shard GF(2^8) bound, encode fails.
(4) With all chunks empty encode fails (empty shards). -/
theorem C1_counterexample :
    (ErasureCoder.encode ⟨2, 1⟩ [[1], [2, 3]] = .ok [[1, 0], [2, 3], [3, 6]] ∧
      ErasureCoder.decode ⟨2, 1⟩ [some [1, 0], some [2, 3], some [3, 6]] =
        .ok [[1, 0], [2, 3]] ∧
      ([[1, 0], [2, 3]] : List (List ℕ)).flatten.take 3 ≠ [1, 2, 3]) ∧
    ErasureCoder.encode ⟨2, 1⟩ [[1], [2], [3]] =
      .error (.erasureCoding "wrong number of shards") ∧
    ErasureCoder.encode ⟨256, 1⟩ [[1]] = .error (.erasureCoding "too many shards") ∧
    ErasureCoder.encode ⟨1, 1⟩ [[]] = .error (.erasureCoding "empty shard") := by
  decide

/-- Witness for C1_round_trip_amended: chunks [[1,2],[3]] with (D, P) =
(2, 1), dropping the first shard of the codeword [[1,2],[3,0],[5,255]]. -/
theorem C1_round_trip_amended_witness :
    ∃ dataOut, ErasureCoder.decode ⟨2, 1⟩ [none, some [3, 0], some [5, 255]] =
        .ok dataOut ∧ dataOut.length = 2 ∧
      dataOut.flatten.take ([[1, 2], [3]] : List (List ℕ)).flatten.length =
        ([[1, 2], [3]] : List (List ℕ)).flatten := by
  obtain ⟨shards, henc, hslen, hdec⟩ :=
    C1_round_trip_amended 2 1 [[1, 2], [3]] (by decide) (by decide) (by decide)
      (by decide) (by decide) (by decide) (by decide) (by decide)
  have hs : shards = [[1, 2], [3, 0], [5, 255]] := by
    have hv : ErasureCoder.encode ⟨2, 1⟩ [[1, 2], [3]] =
        .ok [[1, 2], [3, 0], [5, 255]] := by decide
    rw [hv] at henc
    exact (Option.some.inj (congrArg Except.toOption henc)).symm
  subst hs
  refine hdec [none, some [3, 0], some [5, 255]] (by decide) ?_ (by decide)
  intro i s hi
  match i with
  | 0 => simp at hi
  | 1 =>
      simp only [List.getElem?_cons_succ, List.getElem?_cons_zero] at hi
      cases hi
      rfl
  | 2 =>
      simp only [List.getElem?_cons_succ, List.getElem?_cons_zero] at hi
      cases hi
      rfl
  | n + 3 => simp at hi

end RCE

namespace RCE

/-- natLog2Go meets the floor-log specification once the fuel covers the
input. -/
theorem natLog2Go_spec : ∀ (fuel n : ℕ), 1 ≤ n → n ≤ fuel →
    2 ^ natLog2Go fuel n ≤ n ∧ n < 2 ^ (natLog2Go fuel n + 1) := by
  intro fuel
  induction fuel with
  | zero => intro n h1 h2; omega
  | succ m ih =>
      intro n h1 h2
      rw [natLog2Go]
      by_cases hn : n ≤ 1
      · rw [if_pos hn]
        constructor <;> simp <;> omega
      · rw [if_neg hn]
        have hrec := ih (n / 2) (by omega) (by omega)
        rw [pow_succ, pow_succ]
        constructor
        · have := hrec.1
          omega
        · have := hrec.2
          omega

/-- The floor-log specification of natLog2. -/
theorem natLog2_spec (n : ℕ) (h : 1 ≤ n) :
    2 ^ natLog2 n ≤ n ∧ n < 2 ^ (natLog2 n + 1) :=
  natLog2Go_spec n n h le_rfl

/-- rneNat rounds its fraction to distance at most one half. -/
theorem rneNat_bounds (N Dd : ℕ) (h : 0 < Dd) :
    (N : ℚ) / Dd - 1 / 2 ≤ (rneNat N Dd : ℚ) ∧
      (rneNat N Dd : ℚ) ≤ (N : ℚ) / Dd + 1 / 2 := by
  have hDd : (0 : ℚ) < (Dd : ℚ) := by exact_mod_cast h
  have hmod : Dd * (N / Dd) + N % Dd = N := Nat.div_add_mod N Dd
  have hlt : N % Dd < Dd := Nat.mod_lt N h
  have hx : (N : ℚ) / Dd = ((N / Dd : ℕ) : ℚ) + ((N % Dd : ℕ) : ℚ) / Dd := by
    have hN : (N : ℚ) = (Dd : ℚ) * ((N / Dd : ℕ) : ℚ) + ((N % Dd : ℕ) : ℚ) := by
      exact_mod_cast congrArg (fun k : ℕ => (k : ℚ)) hmod.symm
    rw [hN]
    field_simp
    ring
  have h0 : (0 : ℚ) ≤ ((N % Dd : ℕ) : ℚ) / Dd := by positivity
  have h1 : ((N % Dd : ℕ) : ℚ) / Dd < 1 := by
    rw [div_lt_one hDd]
    exact_mod_cast hlt
  simp only [rneNat]
  split_ifs with hc1 hc2 hc3
  · have hb : ((N % Dd : ℕ) : ℚ) / Dd < 1 / 2 := by
      rw [div_lt_div_iff hDd (by norm_num : (0 : ℚ) < 2)]
      have hn : N % Dd * 2 < 1 * Dd := by omega
      exact_mod_cast hn
    constructor <;> rw [hx] <;> linarith
  · have hb : 1 / 2 < ((N % Dd : ℕ) : ℚ) / Dd := by
      rw [div_lt_div_iff (by norm_num : (0 : ℚ) < 2) hDd]
      have hn : 1 * Dd < N % Dd * 2 := by omega
      exact_mod_cast hn
    constructor <;> rw [hx] <;> push_cast <;> linarith
  · have hb : ((N % Dd : ℕ) : ℚ) / Dd = 1 / 2 := by
      rw [div_eq_div_iff (ne_of_gt hDd) (by norm_num : (2 : ℚ) ≠ 0)]
      have hn : N % Dd * 2 = 1 * Dd := by omega
      exact_mod_cast hn
    constructor <;> rw [hx] <;> linarith
  · have hb : ((N % Dd : ℕ) : ℚ) / Dd = 1 / 2 := by
      rw [div_eq_div_iff (ne_of_gt hDd) (by norm_num : (2 : ℚ) ≠ 0)]
      have hn : N % Dd * 2 = 1 * Dd := by omega
      exact_mod_cast hn
    constructor <;> rw [hx] <;> push_cast <;> linarith

/-- rneNat of an exact fraction is the quotient. -/
theorem rneNat_exact (N Dd : ℕ) (h : 0 < Dd) (hdvd : Dd ∣ N) :
    ((rneNat N Dd : ℕ) : ℚ) = (N : ℚ) / Dd := by
  have hr : N % Dd = 0 := Nat.mod_eq_zero_of_dvd hdvd
  simp only [rneNat, hr]
  rw [if_pos (by omega)]
  rw [Nat.cast_div hdvd (by exact_mod_cast ne_of_gt h)]


/-- A signed power of two split into natural powers. -/
theorem zpow_two_split (c : ℤ) :
    (2 : ℚ) ^ c = (2 : ℚ) ^ c.toNat / (2 : ℚ) ^ (-c).toNat := by
  rcases le_or_lt 0 c with hc | hc
  · rw [show (-c).toNat = 0 by omega, pow_zero, div_one]
    rw [show c = (c.toNat : ℤ) by omega, zpow_natCast, Int.toNat_natCast]
  · set k := (-c).toNat with hk
    rw [show c.toNat = 0 by omega, pow_zero]
    rw [show c = -(k : ℤ) by omega, zpow_neg, zpow_natCast, one_div]

/-- The integer comparison in qexp decides 2 ^ c ≤ q. -/
theorem qexp_cond_iff (q : ℚ) (hq : 0 < q) (c : ℤ) :
    (2 ^ c.toNat * q.den ≤ 2 ^ (-c).toNat * q.num.toNat) ↔ (2 : ℚ) ^ c ≤ q := by
  have hnum : 0 < q.num := Rat.num_pos.mpr hq
  have hd0 : (0 : ℚ) < (q.den : ℚ) := by exact_mod_cast q.pos
  have hqeq : ((q.num.toNat : ℕ) : ℚ) = (q.num : ℚ) := by
    have h4 : ((q.num.toNat : ℤ)) = q.num := Int.toNat_of_nonneg hnum.le
    exact_mod_cast congrArg (fun z : ℤ => (z : ℚ)) h4
  have hA : (2 ^ c.toNat * q.den ≤ 2 ^ (-c).toNat * q.num.toNat) ↔
      ((2 : ℚ) ^ c.toNat * q.den ≤ (2 : ℚ) ^ (-c).toNat * q.num) := by
    rw [← hqeq]
    constructor
    · intro hle
      exact_mod_cast hle
    · intro hle
      exact_mod_cast hle
  have hB : ((2 : ℚ) ^ c ≤ q) ↔
      ((2 : ℚ) ^ c.toNat * q.den ≤ (2 : ℚ) ^ (-c).toNat * q.num) := by
    rw [zpow_two_split c, div_le_iff₀ (by positivity : (0 : ℚ) < (2 : ℚ) ^ (-c).toNat)]
    conv_lhs => rw [show q = (q.num : ℚ) / q.den from (Rat.num_div_den q).symm]
    rw [div_mul_eq_mul_div, le_div_iff₀ hd0]
    rw [mul_comm ((q.num : ℚ)) ((2 : ℚ) ^ (-c).toNat)]
  exact hA.trans hB.symm

/-- qexp finds the binade of a positive rational. -/
theorem qexp_spec (q : ℚ) (hq : 0 < q) :
    (2 : ℚ) ^ qexp q ≤ q ∧ q < 2 ^ (qexp q + 1) := by
  set a := q.num.toNat with ha
  set b := q.den with hb
  have hnum : 0 < q.num := Rat.num_pos.mpr hq
  have ha1 : 1 ≤ a := by omega
  have hb1 : 1 ≤ b := q.pos
  have hcast : ((a : ℤ) : ℚ) = (q.num : ℚ) := by
    rw [ha, Int.toNat_of_nonneg hnum.le]
  have hq_eq : q = (a : ℚ) / (b : ℚ) := by
    rw [show ((a : ℕ) : ℚ) = ((a : ℤ) : ℚ) by push_cast; rfl, hcast]
    exact (Rat.num_div_den q).symm
  have hb0 : (0 : ℚ) < (b : ℚ) := by exact_mod_cast hb1
  obtain ⟨hla, hla'⟩ := natLog2_spec a ha1
  obtain ⟨hlb, hlb'⟩ := natLog2_spec b hb1
  set la := natLog2 a
  set lb := natLog2 b
  set e0 : ℤ := (la : ℤ) - (lb : ℤ) with he0
  have hpow : ∀ (k : ℕ), ((2 : ℚ)) ^ (k : ℤ) = ((2 ^ k : ℕ) : ℚ) := by
    intro k
    push_cast
    rw [zpow_natCast]
  have hupper : q < (2 : ℚ) ^ (e0 + 1) := by
    rw [hq_eq, div_lt_iff₀ hb0]
    have h1 : ((a : ℕ) : ℚ) < ((2 ^ (la + 1) : ℕ) : ℚ) := by exact_mod_cast hla'
    have h2 : ((2 ^ lb : ℕ) : ℚ) ≤ ((b : ℕ) : ℚ) := by exact_mod_cast hlb
    have h3 : (2 : ℚ) ^ (e0 + 1) * ((2 ^ lb : ℕ) : ℚ) = ((2 ^ (la + 1) : ℕ) : ℚ) := by
      rw [← hpow, ← hpow, ← zpow_add₀ (two_ne_zero : (2 : ℚ) ≠ 0)]
      congr 1
      omega
    calc ((a : ℕ) : ℚ) < ((2 ^ (la + 1) : ℕ) : ℚ) := h1
      _ = (2 : ℚ) ^ (e0 + 1) * ((2 ^ lb : ℕ) : ℚ) := h3.symm
      _ ≤ (2 : ℚ) ^ (e0 + 1) * (b : ℚ) := by
          have : (0 : ℚ) < (2 : ℚ) ^ (e0 + 1) := by positivity
          exact mul_le_mul_of_nonneg_left h2 this.le
  have hlower : (2 : ℚ) ^ (e0 - 1) < q := by
    rw [hq_eq, lt_div_iff₀ hb0]
    have h1 : ((2 ^ la : ℕ) : ℚ) ≤ ((a : ℕ) : ℚ) := by exact_mod_cast hla
    have h2 : ((b : ℕ) : ℚ) < ((2 ^ (lb + 1) : ℕ) : ℚ) := by exact_mod_cast hlb'
    have h3 : (2 : ℚ) ^ (e0 - 1) * ((2 ^ (lb + 1) : ℕ) : ℚ) = ((2 ^ la : ℕ) : ℚ) := by
      rw [← hpow, ← hpow, ← zpow_add₀ (two_ne_zero : (2 : ℚ) ≠ 0)]
      congr 1
      omega
    have hpos : (0 : ℚ) < (2 : ℚ) ^ (e0 - 1) := by positivity
    calc (2 : ℚ) ^ (e0 - 1) * (b : ℚ)
        < (2 : ℚ) ^ (e0 - 1) * ((2 ^ (lb + 1) : ℕ) : ℚ) := by
          exact mul_lt_mul_of_pos_left h2 hpos
      _ = ((2 ^ la : ℕ) : ℚ) := h3
      _ ≤ ((a : ℕ) : ℚ) := h1
  have hiff := qexp_cond_iff q hq e0
  simp only [qexp]
  rw [← ha, ← hb, ← he0]
  split_ifs with hc
  · exact ⟨hiff.mp hc, hupper⟩
  · refine ⟨hlower.le, ?_⟩
    rw [show e0 - 1 + 1 = e0 by ring]
    exact lt_of_not_le (fun hcon => hc (hiff.mpr hcon))

/-- The binade is unique. -/
theorem qexp_unique (q : ℚ) (e : ℤ) (h1 : (2 : ℚ) ^ e ≤ q) (h2 : q < 2 ^ (e + 1)) :
    qexp q = e := by
  have hq : 0 < q := lt_of_lt_of_le (by positivity) h1
  obtain ⟨g1, g2⟩ := qexp_spec q hq
  by_contra hne
  rcases lt_or_gt_of_ne hne with hlt | hgt
  · have hle : qexp q + 1 ≤ e := by omega
    have : (2 : ℚ) ^ (qexp q + 1) ≤ 2 ^ e := zpow_le_zpow_right₀ one_le_two hle
    linarith
  · have hle : e + 1 ≤ qexp q := by omega
    have : (2 : ℚ) ^ (e + 1) ≤ 2 ^ qexp q := zpow_le_zpow_right₀ one_le_two hle
    linarith


/-- The unfolding of floatRound on a positive input, with the mkRat result
written as a product. -/
theorem floatRound_pos (q : ℚ) (hq : 0 < q) :
    floatRound q =
      ((rneNat (q.num.toNat * 2 ^ ((52 : ℤ) - qexp q).toNat)
        (q.den * 2 ^ (qexp q - 52).toNat) : ℕ) : ℚ) * 2 ^ (qexp q - 52) := by
  rw [floatRound, if_neg (not_le.mpr hq)]
  show mkRat ((rneNat (q.num.toNat * 2 ^ ((52 : ℤ) - qexp q).toNat)
      (q.den * 2 ^ (qexp q - 52).toNat) : ℕ) * 2 ^ (qexp q - 52).toNat)
      (2 ^ ((52 : ℤ) - qexp q).toNat) = _
  rw [Rat.mkRat_eq_div]
  push_cast
  rw [zpow_two_split (qexp q - 52), show -(qexp q - 52 : ℤ) = 52 - qexp q by ring]
  rw [mul_div_assoc]

/-- The fraction floatRound rounds is the input scaled into the mantissa
range. -/
theorem floatRound_frac (q : ℚ) (hq : 0 < q) :
    ((q.num.toNat * 2 ^ ((52 : ℤ) - qexp q).toNat : ℕ) : ℚ) /
      ((q.den * 2 ^ (qexp q - 52).toNat : ℕ) : ℚ) = q * 2 ^ ((52 : ℤ) - qexp q) := by
  have hnum : 0 < q.num := Rat.num_pos.mpr hq
  have hqeq : ((q.num.toNat : ℕ) : ℚ) = (q.num : ℚ) := by
    have h4 : ((q.num.toNat : ℤ)) = q.num := Int.toNat_of_nonneg hnum.le
    exact_mod_cast congrArg (fun z : ℤ => (z : ℚ)) h4
  set E := qexp q with hE
  push_cast
  rw [zpow_two_split ((52 : ℤ) - E), show -(52 - E : ℤ) = E - 52 by ring]
  conv_rhs => rw [show q = (q.num : ℚ) / q.den from (Rat.num_div_den q).symm]
  rw [div_mul_div_comm]
  rw [hqeq]

/-- Rounding error of floatRound: at most half an ulp of the binade. -/
theorem floatRound_err (q : ℚ) (hq : 0 < q) :
    |floatRound q - q| ≤ 2 ^ (qexp q - 53) := by
  rw [floatRound_pos q hq]
  set e := qexp q with he
  set N := q.num.toNat * 2 ^ ((52 : ℤ) - e).toNat with hN
  set Dd := q.den * 2 ^ (e - 52).toNat with hDdd
  have hDd0 : 0 < Dd := Nat.mul_pos q.pos (pow_pos (by norm_num) _)
  obtain ⟨hb1, hb2⟩ := rneNat_bounds N Dd hDd0
  have hfrac := floatRound_frac q hq
  rw [← hN, ← hDdd] at hfrac
  rw [hfrac] at hb1 hb2
  set x := q * 2 ^ ((52 : ℤ) - e) with hx
  set m := rneNat N Dd with hm
  have hpow : (0 : ℚ) < 2 ^ (e - 52) := by positivity
  have hxq : x * 2 ^ (e - 52) = q := by
    rw [hx, mul_assoc, ← zpow_add₀ (two_ne_zero : (2 : ℚ) ≠ 0)]
    rw [show (52 : ℤ) - e + (e - 52) = 0 by ring, zpow_zero, mul_one]
  have hhalf : (1 : ℚ) / 2 * 2 ^ (e - 52) = 2 ^ (e - 53) := by
    rw [show (1 : ℚ) / 2 = 2 ^ (-1 : ℤ) by norm_num]
    rw [← zpow_add₀ (two_ne_zero : (2 : ℚ) ≠ 0)]
    congr 1
    ring
  have k1 : (m : ℚ) - x ≤ 1 / 2 := by linarith
  have k2 : x - (m : ℚ) ≤ 1 / 2 := by linarith
  rw [abs_sub_le_iff]
  constructor
  · calc (m : ℚ) * 2 ^ (e - 52) - q
        = ((m : ℚ) - x) * 2 ^ (e - 52) := by rw [sub_mul, hxq]
      _ ≤ 1 / 2 * 2 ^ (e - 52) := mul_le_mul_of_nonneg_right k1 hpow.le
      _ = 2 ^ (e - 53) := hhalf
  · calc q - (m : ℚ) * 2 ^ (e - 52)
        = (x - (m : ℚ)) * 2 ^ (e - 52) := by rw [sub_mul, hxq]
      _ ≤ 1 / 2 * 2 ^ (e - 52) := mul_le_mul_of_nonneg_right k2 hpow.le
      _ = 2 ^ (e - 53) := hhalf


/-- Every dyadic rational with a significand below 2 ^ 53 is a binary64
value: floatRound fixes it. -/
theorem floatRound_dyadic (mm : ℕ) (t : ℤ) (h0 : 0 < mm) (h53 : mm < 2 ^ 53) :
    floatRound ((mm : ℚ) * 2 ^ t) = (mm : ℚ) * 2 ^ t := by
  have hq : (0 : ℚ) < (mm : ℚ) * 2 ^ t := by positivity
  have hlog : natLog2 mm ≤ 52 := by
    by_contra hcon
    have h1 : (2 : ℕ) ^ 53 ≤ 2 ^ natLog2 mm := Nat.pow_le_pow_right (by norm_num) (by omega)
    have h2 := (natLog2_spec mm h0).1
    omega
  obtain ⟨hm1, hm2⟩ := natLog2_spec mm h0
  have he : qexp ((mm : ℚ) * 2 ^ t) = (natLog2 mm : ℤ) + t := by
    apply qexp_unique
    · have h1 : ((2 ^ natLog2 mm : ℕ) : ℚ) ≤ (mm : ℚ) := by exact_mod_cast hm1
      calc (2 : ℚ) ^ ((natLog2 mm : ℤ) + t) = 2 ^ (natLog2 mm : ℤ) * 2 ^ t := by
            rw [← zpow_add₀ (two_ne_zero : (2 : ℚ) ≠ 0)]
        _ ≤ (mm : ℚ) * 2 ^ t := by
            have hp : (0 : ℚ) < 2 ^ t := by positivity
            refine mul_le_mul_of_nonneg_right ?_ hp.le
            rw [show ((2 : ℚ)) ^ ((natLog2 mm : ℕ) : ℤ) = ((2 ^ natLog2 mm : ℕ) : ℚ) by
              push_cast; rw [zpow_natCast]]
            exact h1
    · have h1 : (mm : ℚ) < ((2 ^ (natLog2 mm + 1) : ℕ) : ℚ) := by exact_mod_cast hm2
      calc (mm : ℚ) * 2 ^ t < ((2 ^ (natLog2 mm + 1) : ℕ) : ℚ) * 2 ^ t := by
            have hp : (0 : ℚ) < 2 ^ t := by positivity
            exact mul_lt_mul_of_pos_right h1 hp
        _ = 2 ^ ((natLog2 mm : ℤ) + t + 1) := by
            rw [show ((2 ^ (natLog2 mm + 1) : ℕ) : ℚ) = (2 : ℚ) ^ ((natLog2 mm + 1 : ℕ) : ℤ) by
              rw [zpow_natCast]; push_cast; ring]
            rw [← zpow_add₀ (two_ne_zero : (2 : ℚ) ≠ 0)]
            congr 1
            push_cast
            ring
  have hfl := floatRound_pos ((mm : ℚ) * 2 ^ t) hq
  have hfrac := floatRound_frac ((mm : ℚ) * 2 ^ t) hq
  rw [he] at hfl hfrac
  have hxM : ((mm : ℚ) * 2 ^ t) * 2 ^ ((52 : ℤ) - ((natLog2 mm : ℤ) + t)) =
      ((mm * 2 ^ (52 - natLog2 mm) : ℕ) : ℚ) := by
    rw [mul_assoc, ← zpow_add₀ (two_ne_zero : (2 : ℚ) ≠ 0)]
    rw [show t + ((52 : ℤ) - ((natLog2 mm : ℤ) + t)) = ((52 - natLog2 mm : ℕ) : ℤ) by
      push_cast [Nat.cast_sub hlog]; ring]
    rw [zpow_natCast]
    push_cast
    ring
  rw [hxM] at hfrac
  have hDd0 : 0 < ((mm : ℚ) * 2 ^ t).den * 2 ^ (((natLog2 mm : ℤ) + t) - 52).toNat :=
    Nat.mul_pos ((mm : ℚ) * 2 ^ t).pos (pow_pos (by norm_num) _)
  have hDdQ : (0 : ℚ) <
      ((((mm : ℚ) * 2 ^ t).den * 2 ^ (((natLog2 mm : ℤ) + t) - 52).toNat : ℕ) : ℚ) := by
    exact_mod_cast hDd0
  have hNM : ((mm : ℚ) * 2 ^ t).num.toNat * 2 ^ ((52 : ℤ) - ((natLog2 mm : ℤ) + t)).toNat =
      mm * 2 ^ (52 - natLog2 mm) *
        (((mm : ℚ) * 2 ^ t).den * 2 ^ (((natLog2 mm : ℤ) + t) - 52).toNat) := by
    have h1 := hfrac
    rw [div_eq_iff (ne_of_gt hDdQ)] at h1
    exact_mod_cast h1
  have hdvd : (((mm : ℚ) * 2 ^ t).den * 2 ^ (((natLog2 mm : ℤ) + t) - 52).toNat) ∣
      (((mm : ℚ) * 2 ^ t).num.toNat * 2 ^ ((52 : ℤ) - ((natLog2 mm : ℤ) + t)).toNat) :=
    ⟨mm * 2 ^ (52 - natLog2 mm), by rw [hNM]; ring⟩
  have hexact := rneNat_exact _ _ hDd0 hdvd
  rw [hfl, hexact, hfrac]
  rw [show ((mm * 2 ^ (52 - natLog2 mm) : ℕ) : ℚ) =
      (mm : ℚ) * 2 ^ ((52 - natLog2 mm : ℕ) : ℤ) by
    rw [zpow_natCast]; push_cast; ring]
  rw [mul_assoc, ← zpow_add₀ (two_ne_zero : (2 : ℚ) ≠ 0)]
  rw [show ((52 - natLog2 mm : ℕ) : ℤ) + ((natLog2 mm : ℤ) + t - 52) = t by
    push_cast [Nat.cast_sub hlog]; ring]

/-- Naturals below 2 ^ 53 convert to binary64 exactly. -/
theorem floatRound_natCast (n : ℕ) (h0 : 0 < n) (h53 : n < 2 ^ 53) :
    floatRound (n : ℚ) = n := by
  have := floatRound_dyadic n 0 h0 h53
  rw [zpow_zero, mul_one] at this
  exact this


/-- floatRound is idempotent: binary64 values are fixed. -/
theorem floatRound_idem (q : ℚ) : floatRound (floatRound q) = floatRound q := by
  rcases le_or_lt q 0 with h | h
  · have h0 : floatRound q = 0 := by rw [floatRound, if_pos h]
    rw [h0, floatRound, if_pos le_rfl]
  · set e := qexp q with he
    set N := q.num.toNat * 2 ^ ((52 : ℤ) - e).toNat with hN
    set Dd := q.den * 2 ^ (e - 52).toNat with hDdd
    have hDd0 : 0 < Dd := Nat.mul_pos q.pos (pow_pos (by norm_num) _)
    obtain ⟨hb1, hb2⟩ := rneNat_bounds N Dd hDd0
    have hfrac := floatRound_frac q h
    rw [← hN, ← hDdd] at hfrac
    rw [hfrac] at hb1 hb2
    obtain ⟨g1, g2⟩ := qexp_spec q h
    have hpow : (0 : ℚ) < 2 ^ ((52 : ℤ) - e) := by positivity
    have hx1 : (4503599627370496 : ℚ) ≤ q * 2 ^ ((52 : ℤ) - e) := by
      have h1 : (2 : ℚ) ^ e * 2 ^ ((52 : ℤ) - e) ≤ q * 2 ^ ((52 : ℤ) - e) :=
        mul_le_mul_of_nonneg_right g1 hpow.le
      have h2 : (2 : ℚ) ^ e * 2 ^ ((52 : ℤ) - e) = 4503599627370496 := by
        rw [← zpow_add₀ (two_ne_zero : (2 : ℚ) ≠ 0)]
        rw [show e + ((52 : ℤ) - e) = 52 by ring]
        norm_num
      linarith
    have hx2 : q * 2 ^ ((52 : ℤ) - e) < (9007199254740992 : ℚ) := by
      have h1 : q * 2 ^ ((52 : ℤ) - e) < 2 ^ (e + 1) * 2 ^ ((52 : ℤ) - e) :=
        mul_lt_mul_of_pos_right g2 hpow
      have h2 : (2 : ℚ) ^ (e + 1) * 2 ^ ((52 : ℤ) - e) = 9007199254740992 := by
        rw [← zpow_add₀ (two_ne_zero : (2 : ℚ) ≠ 0)]
        rw [show e + 1 + ((52 : ℤ) - e) = 53 by ring]
        norm_num
      linarith
    set m := rneNat N Dd with hm
    have hr1 : 2 ^ 52 ≤ m := by
      have h2 : (4503599627370495 : ℚ) < (m : ℚ) := by linarith
      have h3 : (4503599627370495 : ℕ) < m := by exact_mod_cast h2
      omega
    have hr2 : m ≤ 2 ^ 53 := by
      have h2 : (m : ℚ) < 9007199254740993 := by linarith
      have h3 : m < (9007199254740993 : ℕ) := by exact_mod_cast h2
      omega
    rw [floatRound_pos q h, ← he, ← hN, ← hDdd, ← hm]
    rcases eq_or_lt_of_le hr2 with heq | hlt
    · rw [heq]
      have hval : (((2 : ℕ) ^ 53 : ℕ) : ℚ) * 2 ^ (e - 52) =
          (((2 : ℕ) ^ 52 : ℕ) : ℚ) * 2 ^ (e - 51) := by
        push_cast
        rw [show e - 51 = 1 + (e - 52) by ring, zpow_add₀ (two_ne_zero : (2 : ℚ) ≠ 0),
          zpow_one]
        ring
      rw [hval]
      exact floatRound_dyadic (2 ^ 52) (e - 51) (by positivity) (by norm_num)
    · exact floatRound_dyadic m (e - 52) (by omega) hlt


/-- The rational ceiling of a quotient of naturals is the rounded-up natural
division. -/
theorem ceil_natCast_div (P D : ℕ) (hP : 1 ≤ P) (hD : 1 ≤ D) :
    ⌈(P : ℚ) / (D : ℚ)⌉ = (((P + D - 1) / D : ℕ) : ℤ) := by
  set c := (P + D - 1) / D with hc
  have hD0 : (0 : ℚ) < (D : ℚ) := by exact_mod_cast hD
  have hc1 : 1 ≤ c := (Nat.one_le_div_iff (by omega)).mpr (by omega)
  have hub : c * D ≤ P + D - 1 := Nat.div_mul_le_self _ _
  have hlb : P + D - 1 < (c + 1) * D :=
    (Nat.div_lt_iff_lt_mul (by omega : 0 < D)).mp (Nat.lt_succ_self c)
  have hPle : P ≤ c * D := by
    have h2 : (c + 1) * D = c * D + D := by ring
    omega
  have hPgt : (c - 1) * D < P := by
    have h2 : c - 1 + 1 = c := by omega
    have h3 : (c - 1 + 1) * D = (c - 1) * D + D := by ring
    have h4 : (c - 1 + 1) * D = c * D := by rw [h2]
    omega
  rw [Int.ceil_eq_iff]
  constructor
  · rw [show ((((P + D - 1) / D : ℕ) : ℤ) : ℚ) - 1 = (((c - 1 : ℕ) : ℕ) : ℚ) by
      rw [← hc]; push_cast [Nat.cast_sub hc1]; ring]
    rw [lt_div_iff₀ hD0]
    exact_mod_cast hPgt
  · rw [div_le_iff₀ hD0]
    exact_mod_cast hPle

/-- qmul computes the rational product. -/
theorem qmul_eq (a b : ℚ) : qmul a b = a * b := by
  rw [qmul, Rat.mkRat_eq_div]
  push_cast
  conv_rhs => rw [← Rat.num_div_den a, ← Rat.num_div_den b]
  rw [div_mul_div_comm]

/-- qdiv computes the rational quotient for a positive denominator. -/
theorem qdiv_eq (a b : ℚ) (hb : 0 < b) : qdiv a b = a / b := by
  have hbnum : 0 < b.num := Rat.num_pos.mpr hb
  have hbden : (0 : ℚ) < (b.den : ℚ) := by exact_mod_cast b.pos
  have haden : (0 : ℚ) < (a.den : ℚ) := by exact_mod_cast a.pos
  have htn : ((b.num.toNat : ℕ) : ℚ) = (b.num : ℚ) := by
    have h4 : ((b.num.toNat : ℤ)) = b.num := Int.toNat_of_nonneg hbnum.le
    exact_mod_cast congrArg (fun z : ℤ => (z : ℚ)) h4
  rw [qdiv, Rat.mkRat_eq_div]
  push_cast
  rw [htn]
  have h1 : ((a.den : ℕ) : ℚ) ≠ 0 := ne_of_gt haden
  have h2 : ((b.den : ℕ) : ℚ) ≠ 0 := ne_of_gt hbden
  have h3 : ((b.num : ℤ) : ℚ) ≠ 0 := by
    have := ne_of_gt hbnum
    exact_mod_cast this
  conv_rhs => rw [← Rat.num_div_den a, ← Rat.num_div_den b]
  rw [div_div_div_comm, div_div_eq_mul_div, div_mul_eq_mul_div, div_div]
  rw [mul_comm ((b.num : ℚ)) ((a.den : ℚ))]

/-- ceilNat computes the ceiling of a nonnegative rational. -/
theorem ceilNat_eq (v : ℚ) (hv : 0 ≤ v) : (ceilNat v : ℤ) = ⌈v⌉ := by
  rcases eq_or_lt_of_le hv with h0 | h0
  · rw [← h0]
    have : ceilNat 0 = 0 := by
      rw [ceilNat]
      show ((0 : ℚ).num.toNat + (0 : ℚ).den - 1) / (0 : ℚ).den = 0
      norm_num
    rw [this]
    norm_num
  · have hnum : 0 < v.num := Rat.num_pos.mpr h0
    have hnum1 : 1 ≤ v.num.toNat := by omega
    have htn : ((v.num.toNat : ℕ) : ℚ) = (v.num : ℚ) := by
      have h4 : ((v.num.toNat : ℤ)) = v.num := Int.toNat_of_nonneg hnum.le
      exact_mod_cast congrArg (fun z : ℤ => (z : ℚ)) h4
    have hform : v = ((v.num.toNat : ℕ) : ℚ) / ((v.den : ℕ) : ℚ) := by
      rw [htn]
      exact (Rat.num_div_den v).symm
    rw [ceilNat]
    conv_rhs => rw [hform]
    rw [ceil_natCast_div v.num.toNat v.den hnum1 v.pos]


/-- Rounding a quotient of naturals below 2 ^ 53 to binary64 does not move
it across an integer: the ceilings agree. -/
theorem ceil_floatRound_div (P D : ℕ) (hP : 1 ≤ P) (hD : 1 ≤ D)
    (hP53 : P < 2 ^ 53) (hD53 : D < 2 ^ 53) :
    ⌈floatRound ((P : ℚ) / D)⌉ = ⌈(P : ℚ) / D⌉ := by
  have hD0 : (0 : ℚ) < (D : ℚ) := by exact_mod_cast hD
  have hP0 : (0 : ℚ) < (P : ℚ) := by exact_mod_cast hP
  set q := (P : ℚ) / D with hqdef
  have hq : 0 < q := div_pos hP0 hD0
  by_cases hdvd : D ∣ P
  · obtain ⟨k, hk⟩ := hdvd
    have hk1 : 1 ≤ k := by
      rcases Nat.eq_zero_or_pos k with h0 | h1
      · rw [h0, Nat.mul_zero] at hk
        omega
      · exact h1
    have hk53 : k < 2 ^ 53 := by
      have hkle : k ≤ D * k := by
        calc k = 1 * k := (one_mul k).symm
          _ ≤ D * k := Nat.mul_le_mul_right k hD
      omega
    have hqk : q = (k : ℚ) := by
      rw [hqdef, hk]
      push_cast
      rw [mul_comm, mul_div_assoc, div_self (ne_of_gt hD0), mul_one]
    rw [hqk, floatRound_natCast k hk1 hk53]
  · have herr := floatRound_err q hq
    obtain ⟨g1, g2⟩ := qexp_spec q hq
    set e := qexp q with he
    set r := floatRound q with hr
    have hulp : (2 : ℚ) ^ (e - 53) < 1 / D := by
      have h1 : q < ((2 ^ 53 : ℕ) : ℚ) / D := by
        rw [hqdef]
        exact div_lt_div_of_pos_right (by exact_mod_cast hP53) hD0
      have h2 : (2 : ℚ) ^ e < ((2 ^ 53 : ℕ) : ℚ) / D := lt_of_le_of_lt g1 h1
      have h3 : (2 : ℚ) ^ e * D < (2 ^ 53 : ℕ) := by
        rw [← lt_div_iff₀ hD0]
        exact h2
      have h4 : (2 : ℚ) ^ (e - 53) * D < 1 := by
        have hkey : (2 : ℚ) ^ (e - 53) = 2 ^ e / ((2 ^ 53 : ℕ) : ℚ) := by
          rw [show ((2 ^ 53 : ℕ) : ℚ) = (2 : ℚ) ^ ((53 : ℕ) : ℤ) by
            rw [zpow_natCast]; push_cast; ring]
          rw [← zpow_sub₀ (two_ne_zero : (2 : ℚ) ≠ 0)]
          congr 1
        rw [hkey, div_mul_eq_mul_div, div_lt_one (by positivity)]
        exact h3
      rw [lt_div_iff₀ hD0]
      exact h4
    have hfloor : (⌊q⌋ : ℚ) + 1 / D ≤ q := by
      have h0 : 0 ≤ ⌊q⌋ := Int.floor_nonneg.mpr hq.le
      have h1 : (⌊q⌋ : ℚ) * D ≤ P := by
        have := Int.floor_le q
        calc (⌊q⌋ : ℚ) * D ≤ q * D := mul_le_mul_of_nonneg_right this hD0.le
          _ = P := by rw [hqdef]; field_simp
      have h2 : ⌊q⌋ * (D : ℤ) ≤ (P : ℤ) := by exact_mod_cast h1
      have h3 : ⌊q⌋ * (D : ℤ) ≠ (P : ℤ) := by
        intro hcontra
        apply hdvd
        refine ⟨⌊q⌋.toNat, ?_⟩
        have h4 : ((⌊q⌋.toNat : ℤ)) = ⌊q⌋ := Int.toNat_of_nonneg h0
        have h5 : ((D : ℤ)) * (⌊q⌋.toNat : ℤ) = (P : ℤ) := by
          rw [h4]
          rw [mul_comm]
          exact hcontra
        exact_mod_cast h5.symm
      have h6 : ⌊q⌋ * (D : ℤ) + 1 ≤ (P : ℤ) := by omega
      have h7 : ((⌊q⌋ * (D : ℤ) + 1 : ℤ) : ℚ) ≤ (P : ℚ) := by exact_mod_cast h6
      rw [← sub_nonneg]
      have hexp : q - ((⌊q⌋ : ℚ) + 1 / D) = ((P : ℚ) - (⌊q⌋ * D + 1)) / D := by
        rw [hqdef]
        field_simp
      rw [hexp]
      apply div_nonneg _ hD0.le
      push_cast at h7 ⊢
      linarith
    have hceil : q + 1 / D ≤ (⌈q⌉ : ℚ) := by
      have h1 : (P : ℚ) ≤ (⌈q⌉ : ℚ) * D := by
        have := Int.le_ceil q
        calc (P : ℚ) = q * D := by rw [hqdef]; field_simp
          _ ≤ (⌈q⌉ : ℚ) * D := mul_le_mul_of_nonneg_right this hD0.le
      have h2 : (P : ℤ) ≤ ⌈q⌉ * (D : ℤ) := by exact_mod_cast h1
      have h3 : (P : ℤ) ≠ ⌈q⌉ * (D : ℤ) := by
        intro hcontra
        apply hdvd
        have hc0 : 0 ≤ ⌈q⌉ := Int.ceil_nonneg hq.le
        refine ⟨⌈q⌉.toNat, ?_⟩
        have h4 : ((⌈q⌉.toNat : ℤ)) = ⌈q⌉ := Int.toNat_of_nonneg hc0
        have h5 : ((D : ℤ)) * (⌈q⌉.toNat : ℤ) = (P : ℤ) := by
          rw [h4, mul_comm]
          exact hcontra.symm
        exact_mod_cast h5.symm
      have h6 : (P : ℤ) + 1 ≤ ⌈q⌉ * (D : ℤ) := by omega
      have h7 : ((P : ℤ) + 1 : ℚ) ≤ ((⌈q⌉ * (D : ℤ) : ℤ) : ℚ) := by exact_mod_cast h6
      rw [← sub_nonneg]
      have hexp : (⌈q⌉ : ℚ) - (q + 1 / D) = ((⌈q⌉ * D - (P + 1) : ℚ)) / D := by
        rw [hqdef]
        field_simp
      rw [hexp]
      apply div_nonneg _ hD0.le
      push_cast at h7 ⊢
      linarith
    have habs := abs_sub_le_iff.mp herr
    have hlow : (⌊q⌋ : ℚ) < r := by
      have : q - 2 ^ (e - 53) ≤ r := by linarith [habs.2]
      linarith
    have hhigh : r < (⌈q⌉ : ℚ) := by
      have : r ≤ q + 2 ^ (e - 53) := by linarith [habs.1]
      linarith
    have h1 : ⌈r⌉ ≤ ⌈q⌉ := Int.ceil_le.mpr hhigh.le
    have h2 : ⌈q⌉ ≤ ⌈r⌉ := by
      have hfl : ⌈q⌉ ≤ ⌊q⌋ + 1 := Int.ceil_le_floor_add_one q
      have h4 : ((⌈q⌉ - 1 : ℤ) : ℚ) < r := by
        push_cast
        have hfl2 : ⌈q⌉ - 1 ≤ ⌊q⌋ := by omega
        have h3 : ((⌈q⌉ : ℚ)) - 1 ≤ (⌊q⌋ : ℚ) := by exact_mod_cast hfl2
        linarith
      have h5 : ⌈q⌉ - 1 < ⌈r⌉ := Int.lt_ceil.mpr h4
      omega
    omega


/-- On the empty file (zero actual chunks) the adaptive parity count is the
exact ceiling of P / D floored at one, for all shard counts in the exact
range of binary64. -/
theorem adaptiveParity_zero (D P : ℕ) (hD : 1 ≤ D) (hP : 1 ≤ P)
    (hD53 : D < 2 ^ 53) (hP53 : P < 2 ^ 53) :
    adaptiveParity D P 0 = max ((P + D - 1) / D) 1 := by
  have hD0 : (0 : ℚ) < (D : ℚ) := by exact_mod_cast hD
  have hP0 : (0 : ℚ) < (P : ℚ) := by exact_mod_cast hP
  rw [adaptiveParity, parityRatio]
  rw [show ((max 0 1 : ℕ) : ℚ) = ((1 : ℕ) : ℚ) by norm_num]
  rw [floatRound_natCast 1 one_pos (by norm_num)]
  rw [floatRound_natCast P hP hP53, floatRound_natCast D hD hD53]
  rw [qdiv_eq _ _ hD0, qmul_eq]
  rw [Nat.cast_one, one_mul]
  rw [floatRound_idem]
  have hceil : ⌈floatRound ((P : ℚ) / D)⌉ = (((P + D - 1) / D : ℕ) : ℤ) := by
    rw [ceil_floatRound_div P D hP hD hP53 hD53]
    exact ceil_natCast_div P D hP hD
  have hnn : 0 ≤ floatRound ((P : ℚ) / D) := by
    rw [floatRound]
    split_ifs with hc
    · exact le_rfl
    · rw [Rat.mkRat_eq_div]
      positivity
  have hcn := ceilNat_eq (floatRound ((P : ℚ) / D)) hnn
  rw [hceil] at hcn
  have hfin : ceilNat (floatRound ((P : ℚ) / D)) = (P + D - 1) / D := by exact_mod_cast hcn
  rw [hfin]

/-- splitChunks of nothing is nothing. -/
theorem splitChunks_nil (size : ℕ) : splitChunks [] size = [] := by
  rw [splitChunks]
  simp

/-- The unfolding of splitChunks on real input. -/
theorem splitChunks_cons (data : List ℕ) (size : ℕ) (hs : size ≠ 0) (hd : data ≠ []) :
    splitChunks data size = data.take size :: splitChunks (data.drop size) size := by
  rw [splitChunks]
  rw [dif_neg (by simp [hs, hd])]

/-- The number of chunks is the ceiling of length over size. -/
theorem splitChunks_length (size : ℕ) (hs : 0 < size) :
    ∀ (n : ℕ) (data : List ℕ), data.length ≤ n →
      (splitChunks data size).length = (data.length + size - 1) / size := by
  intro n
  induction n with
  | zero =>
      intro data hlen
      have : data = [] := List.length_eq_zero.mp (by omega)
      subst this
      rw [splitChunks_nil]
      simp only [List.length_nil]
      rw [Nat.div_eq_of_lt (by omega)]
  | succ m ih =>
      intro data hlen
      by_cases hd : data = []
      · subst hd
        rw [splitChunks_nil]
        simp only [List.length_nil, List.length_nil]
        rw [Nat.div_eq_of_lt (by omega)]
      · rw [splitChunks_cons data size (by omega) hd]
        have hdrop : (data.drop size).length = data.length - size := List.length_drop _ _
        have hdlen : 1 ≤ data.length := List.length_pos.mpr hd
        rw [List.length_cons, ih (data.drop size) (by omega), hdrop]
        have harith : data.length + size - 1 = (data.length - 1) + size := by omega
        rw [harith, Nat.add_div_right _ hs]
        rcases Nat.lt_or_ge data.length (size + 1) with hc | hc
        · have h1 : data.length - size = 0 := by omega
          rw [h1]
          simp only [Nat.zero_add]
          rw [Nat.div_eq_of_lt (by omega), Nat.div_eq_of_lt (by omega)]
        · have hL : data.length - size + size - 1 = data.length - size - 1 + size := by omega
          have hR : data.length - 1 = data.length - size - 1 + size := by omega
          rw [hL, hR, Nat.add_div_right _ hs]

end RCE

namespace RCE

/-- Splitting non-empty data with a positive block size yields at least one
chunk. -/
theorem splitChunks_ne_nil (data : List ℕ) (size : ℕ) (hs : size ≠ 0)
    (hd : data ≠ []) : splitChunks data size ≠ [] := by
  rw [splitChunks_cons data size hs hd]
  exact List.cons_ne_nil _ _

/-- The first chunk of non-empty data is non-empty, so the shard size the
encoder computes is positive. -/
theorem splitChunks_maxLen_pos (data : List ℕ) (size : ℕ) (hs : size ≠ 0)
    (hd : data ≠ []) : 0 < maxLen (splitChunks data size) := by
  apply maxLen_pos (splitChunks data size) (data.take size)
  · rw [splitChunks_cons data size hs hd]
    exact List.mem_cons_self _ _
  · intro h
    have := congrArg List.length h
    simp only [List.length_take, List.length_nil] at this
    have hd' : 0 < data.length := List.length_pos.mpr hd
    omega

/-- ErasureCoder::new succeeds exactly on positive shard counts. -/
theorem ErasureCoder.new_ok (d p : ℕ) (hd : d ≠ 0) (hp : p ≠ 0) :
    ErasureCoder.new d p = .ok ⟨d, p⟩ := by
  simp [ErasureCoder.new, hd, hp]

/-- A successful encode of a non-empty chunk list always returns
data + parity shards. -/
theorem encode_ok_length (c : ErasureCoder) (chunks out : List (List ℕ))
    (hne : chunks ≠ []) (h : c.encode chunks = .ok out) :
    out.length = c.dataShards + c.parityShards := by
  have hemp : chunks.isEmpty = false := by
    rw [List.isEmpty_eq_false]
    exact hne
  simp only [ErasureCoder.encode, hemp, Bool.false_eq_true, if_false] at h
  split at h
  · cases h
  · exact rsEncode_ok_length _ _ _ _ h

/-- Handing the encoder more chunks than its data-shard count is always an
erasure-coding error. -/
theorem encode_error_of_lt (d p : ℕ) (chunks : List (List ℕ))
    (hne : chunks ≠ []) (hlt : d < chunks.length) :
    ∃ msg, ErasureCoder.encode ⟨d, p⟩ chunks = .error (.erasureCoding msg) := by
  have hemp : chunks.isEmpty = false := by
    rw [List.isEmpty_eq_false]
    exact hne
  simp only [ErasureCoder.encode, hemp, Bool.false_eq_true, if_false]
  by_cases hb : 256 < d + p
  · exact ⟨"too many shards", by rw [if_pos hb]⟩
  · refine ⟨"wrong number of shards", ?_⟩
    rw [if_neg hb]
    have hplen : (ErasureCoder.prepareShards ⟨d, p⟩ chunks (maxLen chunks)).length =
        chunks.length + p := by
      simp only [ErasureCoder.prepareShards, List.length_append, List.length_map,
        List.length_replicate]
      omega
    rw [rsEncode, if_pos (by omega)]

/-- Reducing an Except bind whose first component is a success. -/
theorem exBind_ok {e a b : Type} (x : a) (f : a → Except e b) :
    (Except.ok x >>= f) = f x := rfl

/-- Reducing an Except bind whose first component is an error. -/
theorem exBind_err {e a b : Type} (err : e) (f : a → Except e b) :
    ((Except.error err : Except e a) >>= f) = Except.error err := rfl

/-- split_file on the branch where both the coder construction and the encode
succeed: the manifest is assembled from the coder parameters and the encoded
shard count. -/
theorem splitFile_eq_ok (m : ChunkManager) (fileData : List ℕ) (c : ErasureCoder)
    (encoded : List (List ℕ))
    (hcoder : (if (splitChunks fileData m.chunkSize).length < m.dataShards / 2 then
        ErasureCoder.new (max (splitChunks fileData m.chunkSize).length 1)
          (adaptiveParity m.dataShards m.parityShards
            (splitChunks fileData m.chunkSize).length)
      else ErasureCoder.new m.dataShards m.parityShards) = .ok c)
    (henc : c.encode (splitChunks fileData m.chunkSize) = .ok encoded) :
    m.splitFile fileData = .ok
      ({ totalSize := fileData.length
         chunkSize := m.chunkSize
         totalChunks := encoded.length
         dataChunks := c.dataShards
         parityChunks := c.parityShards }, encoded) := by
  simp only [ChunkManager.splitFile]
  by_cases hada : (splitChunks fileData m.chunkSize).length < m.dataShards / 2
  · rw [if_pos hada] at hcoder
    rw [if_pos hada, hcoder, exBind_ok, henc, exBind_ok]
    rfl
  · rw [if_neg hada] at hcoder
    rw [if_neg hada, hcoder, exBind_ok, henc, exBind_ok]
    rfl

/-- split_file on the branch where the coder is built but the encode fails:
the error propagates. -/
theorem splitFile_eq_error (m : ChunkManager) (fileData : List ℕ) (c : ErasureCoder)
    (e : ChunkError)
    (hcoder : (if (splitChunks fileData m.chunkSize).length < m.dataShards / 2 then
        ErasureCoder.new (max (splitChunks fileData m.chunkSize).length 1)
          (adaptiveParity m.dataShards m.parityShards
            (splitChunks fileData m.chunkSize).length)
      else ErasureCoder.new m.dataShards m.parityShards) = .ok c)
    (henc : c.encode (splitChunks fileData m.chunkSize) = .error e) :
    m.splitFile fileData = .error e := by
  simp only [ChunkManager.splitFile]
  by_cases hada : (splitChunks fileData m.chunkSize).length < m.dataShards / 2
  · rw [if_pos hada] at hcoder
    rw [if_pos hada, hcoder, exBind_ok, henc, exBind_err]
  · rw [if_neg hada] at hcoder
    rw [if_neg hada, hcoder, exBind_ok, henc, exBind_err]

end RCE

namespace RCE

/-- Claim C10, amended: on a zero-length file split_file succeeds with an
empty shard vector and total_chunks = 0, but the manifest's shard counts are
not 1 and 1: when data_shards >= 2 the adaptive branch fires with zero actual
chunks and (for shard counts in the exactly-representable binary64 range,
below 2^53) reports data_chunks = 1 and parity_chunks = max(ceil(P/D), 1)
(which is 1 only when P <= D), and when data_shards = 1 the configured branch
fires and reports data_chunks = 1 and parity_chunks = P; moreover a manifest
produced by split_file satisfies total_chunks = data_chunks + parity_chunks
exactly when the input file is non-empty. -/
theorem C10_empty_file_amended (S D P : ℕ) (hS : 1 ≤ S) (hD : 1 ≤ D) (hP : 1 ≤ P) :
    (2 ≤ D → D < 2 ^ 53 → P < 2 ^ 53 → ChunkManager.splitFile ⟨S, D, P⟩ [] =
        .ok (⟨0, S, 0, 1, max ((P + D - 1) / D) 1⟩, [])) ∧
    (D = 1 → ChunkManager.splitFile ⟨S, D, P⟩ [] = .ok (⟨0, S, 0, 1, P⟩, [])) ∧
    (∀ (fileData : List ℕ) (mfst : FileManifest) (shards : List (List ℕ)),
        ChunkManager.splitFile ⟨S, D, P⟩ fileData = .ok (mfst, shards) →
        (mfst.totalChunks = mfst.dataChunks + mfst.parityChunks ↔ fileData ≠ [])) := by
  have hch : splitChunks ([] : List ℕ) S = [] := splitChunks_nil S
  have hap1 : 1 ≤ adaptiveParity D P 0 := by
    rw [adaptiveParity]
    exact le_max_right _ 1
  refine ⟨fun hD2 hD53 hP53 => ?_, fun hD1 => ?_, fun fileData mfst shards h => ?_⟩
  · have hap : adaptiveParity D P 0 = max ((P + D - 1) / D) 1 :=
      adaptiveParity_zero D P hD hP hD53 hP53
    have hapne : adaptiveParity D P 0 ≠ 0 := by omega
    have hcoder : (if (splitChunks ([] : List ℕ) S).length < D / 2 then
          ErasureCoder.new (max (splitChunks ([] : List ℕ) S).length 1)
            (adaptiveParity D P (splitChunks ([] : List ℕ) S).length)
        else ErasureCoder.new D P) = .ok ⟨1, max ((P + D - 1) / D) 1⟩ := by
      rw [hch]
      simp only [List.length_nil]
      rw [if_pos (by omega : 0 < D / 2)]
      rw [ErasureCoder.new_ok _ _ (by decide) hapne]
      rw [show (max 0 1 : ℕ) = 1 by decide, hap]
    have henc : ErasureCoder.encode ⟨1, max ((P + D - 1) / D) 1⟩
        (splitChunks ([] : List ℕ) S) = .ok [] := by
      rw [hch]
      rfl
    exact splitFile_eq_ok ⟨S, D, P⟩ [] ⟨1, max ((P + D - 1) / D) 1⟩ [] hcoder henc
  · subst hD1
    have hcoder : (if (splitChunks ([] : List ℕ) S).length < 1 / 2 then
          ErasureCoder.new (max (splitChunks ([] : List ℕ) S).length 1)
            (adaptiveParity 1 P (splitChunks ([] : List ℕ) S).length)
        else ErasureCoder.new 1 P) = .ok ⟨1, P⟩ := by
      rw [hch]
      simp only [List.length_nil]
      rw [if_neg (by omega)]
      exact ErasureCoder.new_ok 1 P (by decide) (by omega)
    have henc : ErasureCoder.encode ⟨1, P⟩ (splitChunks ([] : List ℕ) S) = .ok [] := by
      rw [hch]
      rfl
    exact splitFile_eq_ok ⟨S, 1, P⟩ [] ⟨1, P⟩ [] hcoder henc
  · simp only [ChunkManager.splitFile] at h
    by_cases hf : fileData = []
    · subst hf
      simp only [ne_eq, not_true_eq_false, iff_false]
      rw [hch] at h
      simp only [List.length_nil] at h
      by_cases hada : 0 < D / 2
      · have hapne : adaptiveParity D P 0 ≠ 0 := by omega
        rw [if_pos hada, ErasureCoder.new_ok _ _ (by decide) hapne, exBind_ok] at h
        rw [show ErasureCoder.encode ⟨max 0 1, adaptiveParity D P 0⟩ [] = .ok [] from rfl,
          exBind_ok] at h
        have h' : Except.ok (ε := ChunkError) (⟨0, S, 0, max 0 1, adaptiveParity D P 0⟩,
            ([] : List (List ℕ))) = .ok (mfst, shards) := h
        rw [Except.ok.injEq, Prod.mk.injEq] at h'
        obtain ⟨rfl, -⟩ := h'
        intro hcon
        have h1 : (1 : ℕ) ≤ max 0 1 := by decide
        dsimp only at hcon
        omega
      · rw [if_neg hada, ErasureCoder.new_ok _ _ (by omega) (by omega), exBind_ok] at h
        rw [show ErasureCoder.encode ⟨D, P⟩ [] = .ok [] from rfl, exBind_ok] at h
        have h' : Except.ok (ε := ChunkError) (⟨0, S, 0, D, P⟩, ([] : List (List ℕ))) =
            .ok (mfst, shards) := h
        rw [Except.ok.injEq, Prod.mk.injEq] at h'
        obtain ⟨rfl, -⟩ := h'
        intro hcon
        dsimp only at hcon
        omega
    · simp only [ne_eq, hf, not_false_eq_true, iff_true]
      have hcne : splitChunks fileData S ≠ [] := splitChunks_ne_nil fileData S (by omega) hf
      by_cases hada : (splitChunks fileData S).length < D / 2
      · have hap1 : 1 ≤ adaptiveParity D P (splitChunks fileData S).length := by
          simp only [adaptiveParity]
          exact le_max_right _ 1
        rw [if_pos hada, ErasureCoder.new_ok _ _ (by omega) (by omega), exBind_ok] at h
        rcases henc : ErasureCoder.encode
            ⟨max (splitChunks fileData S).length 1,
              adaptiveParity D P (splitChunks fileData S).length⟩
            (splitChunks fileData S) with e | out
        · rw [henc, exBind_err] at h
          cases h
        · rw [henc, exBind_ok] at h
          have h' : Except.ok (ε := ChunkError)
              (⟨fileData.length, S, out.length, max (splitChunks fileData S).length 1,
                adaptiveParity D P (splitChunks fileData S).length⟩, out) =
              .ok (mfst, shards) := h
          rw [Except.ok.injEq, Prod.mk.injEq] at h'
          obtain ⟨rfl, -⟩ := h'
          exact encode_ok_length _ _ _ hcne henc
      · rw [if_neg hada, ErasureCoder.new_ok _ _ (by omega) (by omega), exBind_ok] at h
        rcases henc : ErasureCoder.encode ⟨D, P⟩ (splitChunks fileData S) with e | out
        · rw [henc, exBind_err] at h
          cases h
        · rw [henc, exBind_ok] at h
          have h' : Except.ok (ε := ChunkError)
              (⟨fileData.length, S, out.length, D, P⟩, out) = .ok (mfst, shards) := h
          rw [Except.ok.injEq, Prod.mk.injEq] at h'
          obtain ⟨rfl, -⟩ := h'
          exact encode_ok_length _ _ _ hcne henc

end RCE

namespace RCE

/-- Claim C10 as stated is false about parity_chunks: with configured shards
(D, P) = (2, 3) the empty file lands in the adaptive branch and the manifest
reports parity_chunks = ceil(3/2) = 2, not 1 (data_chunks = 1 and
total_chunks = 0 do hold). -/
theorem C10_counterexample :
    ChunkManager.splitFile ⟨4, 2, 3⟩ [] = .ok (⟨0, 4, 0, 1, 2⟩, []) ∧ (2 : ℕ) ≠ 1 := by
  refine ⟨?_, by decide⟩
  have hcoder : (if (splitChunks ([] : List ℕ) 4).length < 2 / 2 then
        ErasureCoder.new (max (splitChunks ([] : List ℕ) 4).length 1)
          (adaptiveParity 2 3 (splitChunks ([] : List ℕ) 4).length)
      else ErasureCoder.new 2 3) = .ok ⟨1, 2⟩ := by
    rw [splitChunks_nil]
    decide
  have henc : ErasureCoder.encode ⟨1, 2⟩ (splitChunks ([] : List ℕ) 4) = .ok [] := by
    rw [splitChunks_nil]
    rfl
  exact splitFile_eq_ok ⟨4, 2, 3⟩ [] ⟨1, 2⟩ [] hcoder henc

/-- Witness for C10_empty_file_amended: with chunk size 4, two configured
data shards and one parity shard, the empty file yields the empty shard
vector and a manifest with total_chunks = 0, data_chunks = 1 and
parity_chunks = 1, and 0 is not 1 + 1. -/
theorem C10_empty_file_amended_witness :
    ChunkManager.splitFile ⟨4, 2, 1⟩ [] = .ok (⟨0, 4, 0, 1, max ((1 + 2 - 1) / 2) 1⟩, []) :=
  (C10_empty_file_amended 4 2 1 (by decide) (by decide) (by decide)).1 (by decide)
    (by norm_num) (by norm_num)

end RCE

namespace RCE

/-- Claim C5, amended: for a non-empty file with K actual data blocks (K is
the ceiling of the byte length over the chunk size): when K < D/2 and the
adaptive shard counts fit the 256-shard bound, split_file encodes with
(K, adaptiveParity D P K), where adaptiveParity is the f64 computation
ceil(K * fl(P/D)) floored at one parity shard -- the binary64 rounding can
land one above the exact ceil(K*P/D), e.g. at (D, P, K) = (75, 21, 25);
when K >= D/2 and K <= D and D + P <= 256, split_file encodes with the
configured (D, P); but when K exceeds D (a file more than twice the intended
size), split_file does not encode with (D, P) as the rule would have it: the
codec rejects the chunk list with an erasure-coding error. -/
theorem C5_adaptive_amended (S D P K : ℕ) (fileData : List ℕ)
    (hS : 1 ≤ S) (hD : 1 ≤ D) (hP : 1 ≤ P) (hne : fileData ≠ [])
    (hK : K = (splitChunks fileData S).length) :
    (K < D / 2 → K + adaptiveParity D P K ≤ 256 →
       ∃ shards, ChunkManager.splitFile ⟨S, D, P⟩ fileData =
         .ok (⟨fileData.length, S, K + adaptiveParity D P K, K,
           adaptiveParity D P K⟩, shards)) ∧
    (¬K < D / 2 → K ≤ D → D + P ≤ 256 →
       ∃ shards, ChunkManager.splitFile ⟨S, D, P⟩ fileData =
         .ok (⟨fileData.length, S, D + P, D, P⟩, shards)) ∧
    (D < K → ∃ msg, ChunkManager.splitFile ⟨S, D, P⟩ fileData =
         .error (.erasureCoding msg)) ∧
    K = (fileData.length + S - 1) / S := by
  have hcne : splitChunks fileData S ≠ [] := splitChunks_ne_nil fileData S (by omega) hne
  have hmax : 0 < maxLen (splitChunks fileData S) :=
    splitChunks_maxLen_pos fileData S (by omega) hne
  have hKpos : 1 ≤ K := by
    rw [hK]
    exact List.length_pos.mpr hcne
  have hmaxK : max K 1 = K := max_eq_left hKpos
  have hap1 : 1 ≤ adaptiveParity D P K := by
    simp only [adaptiveParity]
    exact le_max_right _ 1
  refine ⟨fun hada hbound => ?_, fun hada hKD hbound => ?_, fun hgt => ?_, ?_⟩
  · have hcoder : (if (splitChunks fileData S).length < D / 2 then
          ErasureCoder.new (max (splitChunks fileData S).length 1)
            (adaptiveParity D P (splitChunks fileData S).length)
        else ErasureCoder.new D P) = .ok ⟨K, adaptiveParity D P K⟩ := by
      rw [← hK]
      rw [if_pos hada, hmaxK]
      exact ErasureCoder.new_ok K (adaptiveParity D P K) (by omega) (by omega)
    have henc := encode_eq K (adaptiveParity D P K) (splitChunks fileData S) hcne
      (by omega) hbound hmax
    have hsp := splitFile_eq_ok ⟨S, D, P⟩ fileData ⟨K, adaptiveParity D P K⟩ _ hcoder henc
    have hlen : (rsCodeword K (adaptiveParity D P K)
        (paddedData K (splitChunks fileData S) (maxLen (splitChunks fileData S)))
        (maxLen (splitChunks fileData S))).length = K + adaptiveParity D P K := by
      rw [rsCodeword_length, paddedData_length]
      omega
    rw [hlen] at hsp
    exact ⟨_, hsp⟩
  · have hcoder : (if (splitChunks fileData S).length < D / 2 then
          ErasureCoder.new (max (splitChunks fileData S).length 1)
            (adaptiveParity D P (splitChunks fileData S).length)
        else ErasureCoder.new D P) = .ok ⟨D, P⟩ := by
      rw [← hK]
      rw [if_neg hada]
      exact ErasureCoder.new_ok D P (by omega) (by omega)
    have henc := encode_eq D P (splitChunks fileData S) hcne (by omega) hbound hmax
    have hsp := splitFile_eq_ok ⟨S, D, P⟩ fileData ⟨D, P⟩ _ hcoder henc
    have hlen : (rsCodeword D P
        (paddedData D (splitChunks fileData S) (maxLen (splitChunks fileData S)))
        (maxLen (splitChunks fileData S))).length = D + P := by
      rw [rsCodeword_length, paddedData_length]
      omega
    rw [hlen] at hsp
    exact ⟨_, hsp⟩
  · have hnada : ¬(splitChunks fileData S).length < D / 2 := by omega
    have hcoder : (if (splitChunks fileData S).length < D / 2 then
          ErasureCoder.new (max (splitChunks fileData S).length 1)
            (adaptiveParity D P (splitChunks fileData S).length)
        else ErasureCoder.new D P) = .ok ⟨D, P⟩ := by
      rw [if_neg hnada]
      exact ErasureCoder.new_ok D P (by omega) (by omega)
    obtain ⟨msg, hmsg⟩ := encode_error_of_lt D P (splitChunks fileData S) hcne (by omega)
    exact ⟨msg, splitFile_eq_error ⟨S, D, P⟩ fileData ⟨D, P⟩ _ hcoder hmsg⟩
  · rw [hK, splitChunks_length S (by omega) fileData.length fileData le_rfl]

end RCE

namespace RCE

/-- Claim C5 as stated is false in two ways.  A 3-byte file split with chunk
size 1 under configured (D, P) = (2, 1) has K = 3 actual blocks, not below
D/2, so by the rule split_file should encode with the configured (2, 1);
instead the codec receives 3 chunks for 2 data shards and split_file fails
with an erasure-coding error.  And the adaptive parity count is not the
exact ceiling ceil(K*P/D): at (D, P, K) = (75, 21, 25) the f64 computation
ceil(25 * fl(21/75)) lands on 8, one above the exact ceil(25*21/75) = 7. -/
theorem C5_counterexample :
    (ChunkManager.splitFile ⟨1, 2, 1⟩ [0, 0, 0] =
      .error (.erasureCoding "wrong number of shards") ∧ ¬(3 < 2 / 2)) ∧
    adaptiveParity 75 21 25 = 8 ∧ max ((25 * 21 + 75 - 1) / 75) 1 = 7 := by
  refine ⟨⟨?_, by decide⟩, by decide, by decide⟩
  have hch : splitChunks [0, 0, 0] 1 = [[0], [0], [0]] := by
    rw [splitChunks_cons _ _ (by decide) (by decide)]
    rw [show List.drop 1 [0, 0, 0] = [0, 0] from rfl]
    rw [splitChunks_cons _ _ (by decide) (by decide)]
    rw [show List.drop 1 [0, 0] = [0] from rfl]
    rw [splitChunks_cons _ _ (by decide) (by decide)]
    rw [show List.drop 1 [0] = ([] : List ℕ) from rfl]
    rw [splitChunks_nil]
    rfl
  have hcoder : (if (splitChunks [0, 0, 0] 1).length < 2 / 2 then
        ErasureCoder.new (max (splitChunks [0, 0, 0] 1).length 1)
          (adaptiveParity 2 1 (splitChunks [0, 0, 0] 1).length)
      else ErasureCoder.new 2 1) = .ok ⟨2, 1⟩ := by
    rw [hch]
    decide
  have henc : ErasureCoder.encode ⟨2, 1⟩ (splitChunks [0, 0, 0] 1) =
      .error (.erasureCoding "wrong number of shards") := by
    rw [hch]
    decide
  exact splitFile_eq_error ⟨1, 2, 1⟩ [0, 0, 0] ⟨2, 1⟩ _ hcoder henc

/-- Witness for C5_adaptive_amended: the spec's own example, a 1 MiB file of
zero bytes with 256 KiB chunks under configured (10, 3): K = 4 < 5, the
adaptive parity count is 2, and split_file reports 4 data and 2 parity
shards. -/
theorem C5_adaptive_amended_witness :
    (∃ shards, ChunkManager.splitFile ⟨262144, 10, 3⟩ (List.replicate 1048576 0) =
       .ok (⟨(List.replicate 1048576 0).length, 262144, 4 + adaptiveParity 10 3 4, 4,
         adaptiveParity 10 3 4⟩, shards)) ∧ adaptiveParity 10 3 4 = 2 := by
  refine ⟨(C5_adaptive_amended 262144 10 3 4 (List.replicate 1048576 0)
    (by norm_num) (by norm_num) (by norm_num)
    (List.ne_nil_of_length_pos (by rw [List.length_replicate]; norm_num))
    ?_).1 (by norm_num) (by decide), by decide⟩
  rw [splitChunks_length 262144 (by norm_num) (List.replicate 1048576 0).length
    (List.replicate 1048576 0) le_rfl]
  simp only [List.length_replicate]

end RCE
